import Mathlib

/-!
Verification of the matching-engine repository.

The repository documents a Rust limit-order-book matching engine
(`simplified_architecture.md`, `architecture.md`, `readme.md`, module READMEs)
and ships a TypeScript trading front end (`front/`, `frontend/`).  The Rust
snippets embedded in the markdown files are the code of record for the engine;
helpers they reference but do not define are modelled from the specification
and marked as such in their doc comments.  Decimal prices and quantities are
embedded as scaled non-negative integers (the data model declares `int64`
amounts in units of `10^decimals`), on which the operations used by the engine
(`+`, `-`, `min`, comparisons, zero tests) are exact.
-/

namespace Matching

/-- Order side, from `readme.md` (`Side` enum: Bid/Ask) and the engine
snippets (`Side::Buy` / `Side::Sell` in `simplified_architecture.md`). -/
inductive Side where
  | Buy
  | Sell
deriving DecidableEq, Repr

/-- The side of the book a taker matches against. -/
def Side.opposite : Side → Side
  | .Buy => .Sell
  | .Sell => .Buy

/-- Order status, from the Order Status table in `simplified_architecture.md`. -/
inductive OrderStatus where
  | PendingNew
  | New
  | PartiallyFilled
  | Filled
  | Cancelled
  | PartialFillCancelled
  | Rejected
  | WaitingTrigger
deriving DecidableEq, Repr

/-- Time in force, from `readme.md` (GTC, IOC) and the FOK path documented in
the spec and the orderbook module header. -/
inductive TimeInForce where
  | GTC
  | IOC
  | FOK
deriving DecidableEq, Repr

/-- Order type; the engine snippets distinguish limit and market orders. -/
inductive OrderType where
  | Limit
  | Market
deriving DecidableEq, Repr

end Matching

namespace Frontend

/-! Embedding of `front/src/lib/api-client.ts` (file `src/unnamed/part_006`). -/

/-- Frontend order side: `export type OrderSide = 'Buy' | 'Sell'`. -/
inductive OrderSide where
  | Buy
  | Sell
deriving DecidableEq, Repr

/-- Backend order side: `export type BackendOrderSide = 'Bid' | 'Ask'`. -/
inductive BackendOrderSide where
  | Bid
  | Ask
deriving DecidableEq, Repr

/-- `convertOrderSideToBackend(side) { return side === 'Buy' ? 'Bid' : 'Ask'; }` -/
def convertOrderSideToBackend (side : OrderSide) : BackendOrderSide :=
  if side = OrderSide.Buy then BackendOrderSide.Bid else BackendOrderSide.Ask

/-- `convertOrderSideToFrontend(side) { return side === 'Bid' ? 'Buy' : 'Sell'; }` -/
def convertOrderSideToFrontend (side : BackendOrderSide) : OrderSide :=
  if side = BackendOrderSide.Bid then OrderSide.Buy else OrderSide.Sell

/-- Whether the list `pat` occurs at the start of `hay`
(JavaScript `String.startsWith`, used to build `includes`). -/
def charsStartWith : List Char → List Char → Bool
  | _, [] => true
  | [], _ :: _ => false
  | a :: as, b :: bs => a = b && charsStartWith as bs

/-- Whether `pat` occurs as a contiguous substring of `hay`
(JavaScript `String.includes` on the underlying character lists). -/
def charsHaveSub : List Char → List Char → Bool
  | [], pat => charsStartWith [] pat
  | h :: t, pat => charsStartWith (h :: t) pat || charsHaveSub t pat

/-- `endpoint.includes(pat)` from `api-client.ts`. -/
def strIncludes (hay pat : String) : Bool :=
  charsHaveSub hay.toList pat.toList

/-- The kinds of response `ApiClient.handleMockRequest` can produce: the mock
instrument list, a mock created instrument, the mock depth, the mock trade
list, a freshly fabricated order (whose status field it sets), or the final
`Promise.resolve({})` empty object. -/
inductive MockResponse where
  | instrumentsList
  | instrumentCreated
  | depthData
  | tradesData
  | newOrder (status : Matching.OrderStatus)
  | emptyObject
deriving DecidableEq, Repr

/-- `ApiClient.handleMockRequest(endpoint, method, body)`: branch structure and
branch order exactly as in `api-client.ts` lines 160-235; the fabricated order
is created with `status: "New"`. -/
def handleMockRequest (endpoint method : String) : MockResponse :=
  if endpoint = "/instruments" && method = "GET" then
    MockResponse.instrumentsList
  else if endpoint = "/instruments" && method = "POST" then
    MockResponse.instrumentCreated
  else if strIncludes endpoint "/orderbook" || strIncludes endpoint "/depth" then
    MockResponse.depthData
  else if strIncludes endpoint "/trades" then
    MockResponse.tradesData
  else if endpoint = "/orders" && method = "POST" then
    MockResponse.newOrder Matching.OrderStatus.New
  else
    MockResponse.emptyObject

/-- The persistent state of an `ApiClient` instance relevant to mock fallback:
`private useMock: boolean = false`. -/
structure ClientState where
  useMock : Bool
deriving DecidableEq, Repr

/-- Outcome of one attempted `fetch`: either the server answers with an OK
response, or the attempt fails (a network error, or a non-OK HTTP status which
`request` turns into a thrown error). -/
inductive ServerOutcome where
  | ok
  | failed
deriving DecidableEq, Repr

/-- What a call to `ApiClient.request` returns. -/
inductive RequestAnswer where
  | fromServer
  | fromMock (m : MockResponse)
deriving DecidableEq, Repr

/-- One call of `ApiClient.request(endpoint, method, body)` as a state
transition.  Returns the new client state, the answer, and whether the server
was contacted.  Mirrors `api-client.ts` lines 89-137: if `useMock` is set the
request is answered by `handleMockRequest` without any `fetch`; otherwise a
`fetch` is attempted and on failure `useMock` is set to `true` and the mock
handler answers. -/
def requestStep (st : ClientState) (endpoint method : String)
    (server : ServerOutcome) : ClientState × RequestAnswer × Bool :=
  if st.useMock then
    (st, RequestAnswer.fromMock (handleMockRequest endpoint method), false)
  else
    match server with
    | ServerOutcome.ok => (st, RequestAnswer.fromServer, true)
    | ServerOutcome.failed =>
        ({ useMock := true },
         RequestAnswer.fromMock (handleMockRequest endpoint method), true)

/-- `ApiClient.setMockMode(useMock)`. -/
def setMockMode (_st : ClientState) (useMock : Bool) : ClientState :=
  { useMock := useMock }

/-- Whether a mock response is one of the data kinds listed in claim C10:
a mock instrument, depth, trades, or a freshly fabricated New order. -/
def isListedMockData : MockResponse → Bool
  | MockResponse.instrumentsList => true
  | MockResponse.instrumentCreated => true
  | MockResponse.depthData => true
  | MockResponse.tradesData => true
  | MockResponse.newOrder _ => true
  | MockResponse.emptyObject => false

end Frontend

namespace Matching

/-! ## Order, trade, price level, order book

Embedded from the Rust snippets in `simplified_architecture.md` (optimized
`OrderBook` / `PriceLevel` structures, `match_order`, `process_limit_order`,
`update_best_prices`, `best_bid`, `best_ask`) and `architecture.md`
(`PriceLevel::new`, `PriceLevel::add_order`). -/

/-- An order.  Fields follow the Orders table in `simplified_architecture.md`
(scaled `int64` amounts); identifiers are embedded as naturals. -/
structure Order where
  id : Nat
  side : Side
  otype : OrderType
  tif : TimeInForce
  /-- Limit price (scaled); present for limit orders. -/
  price : Nat
  baseAmount : Nat
  remainingBase : Nat
  filledBase : Nat
  status : OrderStatus
deriving DecidableEq, Repr

/-- A trade, per the Trade table: maker and taker order ids, base amount,
price. -/
structure Trade where
  makerOrderId : Nat
  takerOrderId : Nat
  baseAmount : Nat
  price : Nat
deriving DecidableEq, Repr

/-- Sum of the `remaining_base` fields of a list of orders. -/
def sumRemaining (orders : List Order) : Nat :=
  (orders.map Order.remainingBase).sum

/-- Sum of the base amounts of a list of trades. -/
def sumBases (trades : List Trade) : Nat :=
  (trades.map Trade.baseAmount).sum

/-- A price level: price, FIFO queue of resting orders (head oldest), and the
cached total base volume (`total_volume` in the source). -/
structure PriceLevel where
  price : Nat
  orders : List Order
  totalVolume : Nat
deriving DecidableEq, Repr

/-- `PriceLevel::new` from `architecture.md`: empty queue, zero volume. -/
def PriceLevel.new (price : Nat) : PriceLevel :=
  { price := price, orders := [], totalVolume := 0 }

/-- `PriceLevel::add_order` from `architecture.md`:
`self.total_volume += order.remaining_base; self.orders.push_back(order);`. -/
def PriceLevel.addOrder (lvl : PriceLevel) (o : Order) : PriceLevel :=
  { lvl with totalVolume := lvl.totalVolume + o.remainingBase,
             orders := lvl.orders ++ [o] }

/-- The optimized `OrderBook` from `simplified_architecture.md`.  The source
keys each side in a `BTreeMap` whose declared iteration order puts the best
price first (buy side "price descending", sell side "price ascending", with
`first_entry` documented as "lowest sell for buy orders, highest buy for sell
orders"); each side is embedded as a list of levels in that order, best
first. -/
structure OrderBook where
  buyLevels : List PriceLevel
  sellLevels : List PriceLevel
  bestBid : Option Nat
  bestAsk : Option Nat
  lastTradePrice : Option Nat
deriving Repr

/-- An empty order book. -/
def OrderBook.empty : OrderBook :=
  { buyLevels := [], sellLevels := [], bestBid := none, bestAsk := none,
    lastTradePrice := none }

/-- `is_order_complete` (used as the match-loop guard): the taker is complete
when nothing remains. -/
def isOrderComplete (o : Order) : Bool :=
  o.remainingBase = 0

/-- `Order::is_market`. -/
def Order.isMarket (o : Order) : Bool :=
  o.otype = OrderType.Market

/-- Modelled from the spec: `is_price_acceptable`, referenced by `match_order`
in `simplified_architecture.md` but not defined there.  A limit bid accepts
levels priced at or below its limit, a limit ask levels at or above. -/
def isPriceAcceptable (o : Order) (levelPrice : Nat) : Bool :=
  match o.side with
  | Side.Buy => levelPrice ≤ o.price
  | Side.Sell => o.price ≤ levelPrice

/-- Execute a fill of `qty` against an order: decrease remaining, increase
filled. -/
def fillOrder (o : Order) (qty : Nat) : Order :=
  { o with remainingBase := o.remainingBase - qty,
           filledBase := o.filledBase + qty }

/-- Modelled from the spec: the inner loop of `match_at_price_level`
(referenced by `match_order` but not defined in the source). For each head
maker while the taker is incomplete: execute `min(taker.remaining,
maker.remaining)` at the level price, emit a trade, pop the maker if it is now
fully filled, otherwise leave the partially filled maker at the head.  Returns
the updated taker, the remaining makers, and the trades in order. -/
def matchMakers (taker : Order) (price : Nat) :
    List Order → Order × List Order × List Trade
  | [] => (taker, [], [])
  | maker :: rest =>
    if isOrderComplete taker then (taker, maker :: rest, [])
    else
      let qty := min taker.remainingBase maker.remainingBase
      let t : Trade := { makerOrderId := maker.id, takerOrderId := taker.id,
                         baseAmount := qty, price := price }
      let taker' := fillOrder taker qty
      let maker' := fillOrder maker qty
      if maker'.remainingBase = 0 then
        let r := matchMakers taker' price rest
        (r.1, r.2.1, t :: r.2.2)
      else
        (taker', maker' :: rest, [t])

/-- `match_at_price_level`: match the taker against one level's queue,
maintaining the level's cached volume (executed quantity is subtracted). -/
def matchAtPriceLevel (taker : Order) (lvl : PriceLevel) :
    Order × PriceLevel × List Trade :=
  let r := matchMakers taker lvl.price lvl.orders
  (r.1,
   { price := lvl.price, orders := r.2.1,
     totalVolume := lvl.totalVolume - sumBases r.2.2 },
   r.2.2)

/-- The matching loop of `OrderBook::match_order`
(`simplified_architecture.md`): while the taker is incomplete, take the first
(best) opposite level; stop if there is none, or if the taker is a limit order
and the level price is not acceptable; otherwise match at that level; an
emptied level is removed and the loop continues. -/
def matchLoop (taker : Order) :
    List PriceLevel → Order × List PriceLevel × List Trade
  | [] => (taker, [], [])
  | lvl :: rest =>
    if isOrderComplete taker then (taker, lvl :: rest, [])
    else if !taker.isMarket && !isPriceAcceptable taker lvl.price then
      (taker, lvl :: rest, [])
    else
      let r := matchAtPriceLevel taker lvl
      if r.2.1.orders.isEmpty then
        let r2 := matchLoop r.1 rest
        (r2.1, r2.2.1, r.2.2 ++ r2.2.2)
      else
        (r.1, r.2.1 :: rest, r.2.2)

/-- `OrderBook::update_best_prices`: the cached best bid/ask become the first
key of each side (`self.buy_levels.keys().next().cloned()`), i.e. the head
level's price in the embedded best-first ordering. -/
def updateBestPrices (b : OrderBook) : OrderBook :=
  { b with bestBid := b.buyLevels.head?.map PriceLevel.price,
           bestAsk := b.sellLevels.head?.map PriceLevel.price }

/-- `OrderBook::best_bid` (optimized version): returns the cached value. -/
def OrderBook.bestBidQuery (b : OrderBook) : Option Nat :=
  b.bestBid

/-- `OrderBook::best_ask` (optimized version): returns the cached value. -/
def OrderBook.bestAskQuery (b : OrderBook) : Option Nat :=
  b.bestAsk

/-- `OrderBook::match_order`: dispatch on the taker side to the opposite book
side, run the matching loop, record the last trade price if any trades
occurred, and refresh the cached best prices.  Returns the trades, the updated
taker, and the updated book. -/
def OrderBook.matchOrder (book : OrderBook) (order : Order) :
    List Trade × Order × OrderBook :=
  match order.side with
  | Side.Buy =>
    let r := matchLoop order book.sellLevels
    (r.2.2, r.1,
     updateBestPrices
       { book with
           sellLevels := r.2.1,
           lastTradePrice :=
             if r.2.2.isEmpty then book.lastTradePrice
             else r.2.2.getLast?.map Trade.price })
  | Side.Sell =>
    let r := matchLoop order book.buyLevels
    (r.2.2, r.1,
     updateBestPrices
       { book with
           buyLevels := r.2.1,
           lastTradePrice :=
             if r.2.2.isEmpty then book.lastTradePrice
             else r.2.2.getLast?.map Trade.price })

/-- `match_order`'s remaining order: `Some` of the taker when incomplete,
`None` when fully matched. -/
def remainingOrderOf (o : Order) : Option Order :=
  if isOrderComplete o then none else some o

/-- Whether the first price is strictly better than the second on the buy side
(higher bids are better). -/
def buyBetter (p q : Nat) : Bool := q < p

/-- Whether the first price is strictly better than the second on the sell
side (lower asks are better). -/
def sellBetter (p q : Nat) : Bool := p < q

/-- Insert a resting order into a best-first side (`BTreeMap` entry /
or-insert in the source): find or create the level keyed by the order's limit
price and append the order to its tail. -/
def insertIntoSide (firstBetter : Nat → Nat → Bool) (o : Order) :
    List PriceLevel → List PriceLevel
  | [] => [(PriceLevel.new o.price).addOrder o]
  | lvl :: rest =>
    if lvl.price = o.price then lvl.addOrder o :: rest
    else if firstBetter o.price lvl.price then
      (PriceLevel.new o.price).addOrder o :: lvl :: rest
    else lvl :: insertIntoSide firstBetter o rest

/-- `OrderBook::add_order`: insert the remainder at its limit price on its own
side and refresh the cached best prices. -/
def OrderBook.addOrder (book : OrderBook) (o : Order) : OrderBook :=
  updateBestPrices <|
    match o.side with
    | Side.Buy =>
      { book with buyLevels := insertIntoSide buyBetter o book.buyLevels }
    | Side.Sell =>
      { book with sellLevels := insertIntoSide sellBetter o book.sellLevels }

/-- Remove the order with the given id from a side; the hit level's cached
volume is reduced by the removed remaining amount and an emptied level is
dropped.  Returns the new side and the removed orders. -/
def removeOrderId (oid : Nat) :
    List PriceLevel → List PriceLevel × List Order
  | [] => ([], [])
  | lvl :: rest =>
    let hit := lvl.orders.filter (fun o => o.id == oid)
    if hit.isEmpty then
      let r := removeOrderId oid rest
      (lvl :: r.1, r.2)
    else
      let keep := lvl.orders.filter (fun o => o.id != oid)
      let lvl' :=
        { lvl with
            orders := keep,
            totalVolume := lvl.totalVolume - sumRemaining hit }
      ((if keep.isEmpty then rest else lvl' :: rest), hit)

/-- Modelled from the spec: `OrderBook::cancel` (locate the order, remove it
from its level, drop the level if empty, refresh caches); the implementation
is not in the source.  Searches the buy side first, then the sell side.
Returns the updated book, the side the order was found on, and the removed
orders (empty when not found, matching `OrderNotFound`). -/
def OrderBook.cancelOrder (book : OrderBook) (oid : Nat) :
    OrderBook × Side × List Order :=
  let rb := removeOrderId oid book.buyLevels
  if rb.2.isEmpty then
    let rs := removeOrderId oid book.sellLevels
    (updateBestPrices { book with sellLevels := rs.1 }, Side.Sell, rs.2)
  else
    (updateBestPrices { book with buyLevels := rb.1 }, Side.Buy, rb.2)

/-- The levels a taker matches against. -/
def OrderBook.oppositeLevels (book : OrderBook) (side : Side) :
    List PriceLevel :=
  match side with
  | Side.Buy => book.sellLevels
  | Side.Sell => book.buyLevels

/-- All orders resting on a side, in priority order (best level first, FIFO
within a level). -/
def levelsOrders (levels : List PriceLevel) : List Order :=
  levels.foldr (fun lvl acc => lvl.orders ++ acc) []

/-- Sum of the cached `total_volume` fields of a side's levels. -/
def levelsVolume (levels : List PriceLevel) : Nat :=
  (levels.map PriceLevel.totalVolume).sum

/-- The prefix of a side's levels whose prices the taker's limit crosses
(the levels the matching loop can reach before the price check stops it). -/
def acceptablePrefix (taker : Order) (levels : List PriceLevel) :
    List PriceLevel :=
  levels.takeWhile (fun lvl => isPriceAcceptable taker lvl.price)

/-- Modelled from the spec: `check_fok_liquidity` (declared in the orderbook
module header in the source but not implemented there) walks the opposite
side's levels up to the taker's price bound, sums the resting `remaining`
amounts, and reports whether the taker's amount is fully coverable, without
mutating any state. -/
def checkFokLiquidity (book : OrderBook) (taker : Order) : Bool :=
  decide (taker.remainingBase ≤
    sumRemaining (levelsOrders
      (acceptablePrefix taker (book.oppositeLevels taker.side))))

/-- Outcome of processing one taker: trades, the taker's final snapshot, the
rested remainder if any, and the updated book. -/
structure ProcessOutcome where
  trades : List Trade
  taker : Order
  rested : Option Order
  book : OrderBook

/-- Modelled from the spec: the taker status assigned to a rested remainder,
"PartiallyFilled or New if rested (New when no matches occurred)". -/
def restedStatus (trades : List Trade) : OrderStatus :=
  if trades.isEmpty then OrderStatus.New else OrderStatus.PartiallyFilled

/-- `MatchingEngine::process_limit_order` from `simplified_architecture.md`:
match the taker; if the order is not IOC and not market, add any remainder to
the book (at its limit price); otherwise the remainder is not rested and its
status is set to `Cancelled` — the source sets `Cancelled` unconditionally,
even after a partial fill.  Statuses for the matched/rested taker are modelled
from the spec (`Filled` when fully matched, `restedStatus` when rested). -/
def processLimitOrder (book : OrderBook) (order : Order) : ProcessOutcome :=
  let m := book.matchOrder order
  let ts := m.1
  let tk := m.2.1
  let book' := m.2.2
  if order.tif ≠ TimeInForce.IOC ∧ order.otype ≠ OrderType.Market then
    match remainingOrderOf tk with
    | some r =>
      let r' := { r with status := restedStatus ts }
      { trades := ts, taker := r', rested := some r', book := book'.addOrder r' }
    | none =>
      { trades := ts, taker := { tk with status := OrderStatus.Filled },
        rested := none, book := book' }
  else
    match remainingOrderOf tk with
    | some r =>
      let r' := { r with status := OrderStatus.Cancelled }
      { trades := ts, taker := r', rested := none, book := book' }
    | none =>
      { trades := ts, taker := { tk with status := OrderStatus.Filled },
        rested := none, book := book' }

/-- Modelled from the spec: the Limit+FOK path ("First call
`check_fok_liquidity`. If insufficient, the taker is immediately Cancelled
with no trades. Otherwise perform the full match"); the readme lists FOK as
not yet implemented, so the whole path is modelled. -/
def processLimitFOK (book : OrderBook) (order : Order) : ProcessOutcome :=
  if checkFokLiquidity book order then
    let m := book.matchOrder order
    { trades := m.1, taker := { m.2.1 with status := OrderStatus.Filled },
      rested := none, book := m.2.2 }
  else
    { trades := [], taker := { order with status := OrderStatus.Cancelled },
      rested := none, book := book }

/-! ## Depth tracker and engine step -/

/-- Adjust the aggregated volume at one price in a depth side, creating the
entry when absent.  Volumes are signed decimals in the source
(`rust_decimal::Decimal`), embedded as integers. -/
def depthAdjust (entries : List (Nat × Int)) (price : Nat) (delta : Int) :
    List (Nat × Int) :=
  match entries with
  | [] => [(price, delta)]
  | (p, v) :: rest =>
    if p = price then (p, v + delta) :: rest
    else (p, v) :: depthAdjust rest price delta

/-- The `DepthModule` from `simplified_architecture.md`: one aggregated
price-to-volume map per side. -/
structure DepthModule where
  buyDepth : List (Nat × Int)
  sellDepth : List (Nat × Int)
deriving Repr

/-- An empty depth module. -/
def DepthModule.empty : DepthModule :=
  { buyDepth := [], sellDepth := [] }

/-- Adjust one side of the depth module. -/
def DepthModule.adjust (d : DepthModule) (side : Side) (price : Nat)
    (delta : Int) : DepthModule :=
  match side with
  | Side.Buy => { d with buyDepth := depthAdjust d.buyDepth price delta }
  | Side.Sell => { d with sellDepth := depthAdjust d.sellDepth price delta }

/-- Modelled from the spec: `DepthModule::update_after_order_added` (called by
`process_limit_order` but not implemented in the source) adds the rested
order's remaining amount at its limit price on its side. -/
def DepthModule.updateAfterOrderAdded (d : DepthModule) (o : Order) :
    DepthModule :=
  d.adjust o.side o.price (Int.ofNat o.remainingBase)

/-- Modelled from the spec: `DepthModule::update_after_trade` (called by
`process_limit_order` but not implemented in the source) subtracts the traded
base amount at the trade price on the maker side, i.e. the side opposite the
taker. -/
def DepthModule.updateAfterTrade (d : DepthModule) (takerSide : Side)
    (t : Trade) : DepthModule :=
  d.adjust takerSide.opposite t.price (-(Int.ofNat t.baseAmount))

/-- Sum of the volumes held by one depth side. -/
def depthVolume (entries : List (Nat × Int)) : Int :=
  (entries.map Prod.snd).sum

/-- One side of the depth module. -/
def DepthModule.sideDepth (d : DepthModule) : Side → List (Nat × Int)
  | Side.Buy => d.buyDepth
  | Side.Sell => d.sellDepth

/-- A per-instrument engine: order book plus depth tracker (the
`MatchingEngine` fields of `simplified_architecture.md` that carry state). -/
structure Engine where
  book : OrderBook
  depth : DepthModule
deriving Repr

/-- An empty engine. -/
def Engine.empty : Engine :=
  { book := OrderBook.empty, depth := DepthModule.empty }

/-- Apply the depth updates of `process_limit_order` for one outcome: one
`update_after_order_added` for a rested remainder and one `update_after_trade`
per trade. -/
def depthAfterOutcome (d : DepthModule) (takerSide : Side)
    (out : ProcessOutcome) : DepthModule :=
  let d1 :=
    match out.rested with
    | some r => d.updateAfterOrderAdded r
    | none => d
  out.trades.foldl (fun dd t => dd.updateAfterTrade takerSide t) d1

/-- One engine step for a limit order: GTC and IOC run
`process_limit_order`; FOK runs the modelled FOK path; depth is updated from
the same outcome. -/
def Engine.place (e : Engine) (order : Order) : Engine × ProcessOutcome :=
  let out :=
    if order.tif = TimeInForce.FOK then processLimitFOK e.book order
    else processLimitOrder e.book order
  ({ book := out.book, depth := depthAfterOutcome e.depth order.side out }, out)

/-- One engine step for a cancel: remove the order from the book and subtract
each removed order's remaining amount from the depth at its price. -/
def Engine.cancel (e : Engine) (oid : Nat) : Engine :=
  let r := e.book.cancelOrder oid
  { book := r.1,
    depth := r.2.2.foldl
      (fun dd o => dd.adjust r.2.1 o.price (-(Int.ofNat o.remainingBase)))
      e.depth }

/-! ## Manager

Modelled from the spec and
`src/domain/services/orderbook_manager/README.md`: the implementation file
`orderbook_manager_service.rs` is not in the source; the README declares the
trait, the `halted_orderbooks` set, and the `OrderbookManagerError` enum. -/

/-- `OrderbookManagerError` from the orderbook-manager README. -/
inductive ManagerError where
  | InstrumentNotRegistered
  | ChannelSendError
  | OrderbookError
  | Timeout
  | CloseOrderbookError
  | OrderbookHalted
deriving DecidableEq, Repr

/-- A command routed by the manager: place an order on an instrument, or
cancel an order by id. -/
inductive Command where
  | place (instrumentId : Nat) (order : Order)
  | cancel (instrumentId : Nat) (orderId : Nat)
deriving Repr

/-- Modelled from the spec: the manager holds one engine per registered
instrument and a set of halted instrument ids. -/
structure Manager where
  engines : List (Nat × Engine)
  halted : List Nat

/-- Look up the engine registered for an instrument. -/
def Manager.lookupEngine (m : Manager) (iid : Nat) : Option Engine :=
  (m.engines.find? (fun p => p.1 == iid)).map Prod.snd

/-- Replace the engine registered for an instrument. -/
def Manager.setEngine (m : Manager) (iid : Nat) (e : Engine) : Manager :=
  { m with engines := m.engines.map (fun p => if p.1 == iid then (p.1, e) else p) }

/-- Modelled from the spec: command routing.  An instrument with no registered
worker yields `InstrumentNotRegistered`; on a halted instrument a `Place` is
rejected with `OrderbookHalted` while a `Cancel` is still applied. -/
def Manager.route (m : Manager) (cmd : Command) : Except ManagerError Manager :=
  match cmd with
  | Command.place iid order =>
    match m.lookupEngine iid with
    | none => Except.error ManagerError.InstrumentNotRegistered
    | some e =>
      if m.halted.contains iid then Except.error ManagerError.OrderbookHalted
      else Except.ok (m.setEngine iid (e.place order).1)
  | Command.cancel iid oid =>
    match m.lookupEngine iid with
    | none => Except.error ManagerError.InstrumentNotRegistered
    | some e => Except.ok (m.setEngine iid (e.cancel oid))

/-! ## Decimal quote rounding

Modelled from the spec: the engine source fixes no explicit rounding rule (the
spec's open questions note this and fix half-away-from-zero at the declared
decimal scale).  Amounts and prices at scale `s` are mantissas in units of
`10^-s`; the exact quote value is `base * price / 10^(2s)`, whose mantissa at
scale `s` is the rational `base * price / 10^s`. -/

/-- Round the rational `n / d` (for `d > 0`) to the nearest natural, halves
away from zero: `⌊(2n + d) / (2d)⌋`. -/
def roundHalfAway (n d : Nat) : Nat :=
  (2 * n + d) / (2 * d)

/-- The quote mantissa of a trade at scale `s`: `base * price` scaled back by
`10^s`, rounded half away from zero. -/
def quoteAmount (s base price : Nat) : Nat :=
  roundHalfAway (base * price) (10 ^ s)

/-- Ceiling division: the exact product rounded up at the scale. -/
def ceilDivNat (n d : Nat) : Nat :=
  (n + d - 1) / d

/-! ## Well-formedness -/

/-- A well-formed price level: nonempty queue, every order positive and priced
at the level's price, and the cached volume equal to the sum of remaining
amounts. -/
def levelWF (lvl : PriceLevel) : Prop :=
  lvl.orders ≠ [] ∧
  (∀ o ∈ lvl.orders, 0 < o.remainingBase ∧ o.price = lvl.price) ∧
  lvl.totalVolume = sumRemaining lvl.orders

/-- A well-formed side: levels pairwise ordered best-first by `better` and
each level well-formed. -/
def sideWF (better : Nat → Nat → Bool) (levels : List PriceLevel) : Prop :=
  levels.Pairwise (fun a b => better a.price b.price = true) ∧
  ∀ lvl ∈ levels, levelWF lvl

/-- The ids of the orders resting on a side, in priority order. -/
def sideIds (levels : List PriceLevel) : List Nat :=
  (levelsOrders levels).map Order.id

/-- A well-formed book: both sides well-formed with distinct order ids. -/
def bookWF (b : OrderBook) : Prop :=
  sideWF buyBetter b.buyLevels ∧ sideWF sellBetter b.sellLevels ∧
  (sideIds b.buyLevels).Nodup ∧ (sideIds b.sellLevels).Nodup

/-- Well-formedness of a level is decidable. -/
instance (lvl : PriceLevel) : Decidable (levelWF lvl) := by
  unfold levelWF
  infer_instance

/-- Well-formedness of a side is decidable. -/
instance (better : Nat → Nat → Bool) (levels : List PriceLevel) :
    Decidable (sideWF better levels) := by
  unfold sideWF
  infer_instance

/-- Well-formedness of a book is decidable. -/
instance (b : OrderBook) : Decidable (bookWF b) := by
  unfold bookWF
  infer_instance

/-- The best-first strict price ordering of a side. -/
def betterOn : Side → Nat → Nat → Bool
  | Side.Buy => buyBetter
  | Side.Sell => sellBetter

/-- The levels of the book's own side. -/
def OrderBook.sideLevels (book : OrderBook) (side : Side) : List PriceLevel :=
  match side with
  | Side.Buy => book.buyLevels
  | Side.Sell => book.sellLevels

/-- Cache coherence, claim C5's property: the cached best bid is the maximum
bid price with nonzero resting volume (none exactly on an empty side), and
symmetrically the cached best ask is the minimum such ask price. -/
def cacheCoherent (b : OrderBook) : Prop :=
  (b.bestBid = none ↔ b.buyLevels = []) ∧
  (∀ p, b.bestBid = some p →
    (∃ lvl ∈ b.buyLevels, lvl.price = p ∧ 0 < lvl.totalVolume) ∧
    ∀ lvl ∈ b.buyLevels, lvl.price ≤ p) ∧
  (b.bestAsk = none ↔ b.sellLevels = []) ∧
  (∀ p, b.bestAsk = some p →
    (∃ lvl ∈ b.sellLevels, lvl.price = p ∧ 0 < lvl.totalVolume) ∧
    ∀ lvl ∈ b.sellLevels, p ≤ lvl.price)

/-- Book/depth coherence, claim C6's property: on each side, the sum of the
cached level volumes and the volume held by the depth tracker both equal the
sum of the remaining amounts of the resting orders on that side. -/
def engineCoherent (e : Engine) : Prop :=
  levelsVolume e.book.buyLevels = sumRemaining (levelsOrders e.book.buyLevels) ∧
  levelsVolume e.book.sellLevels = sumRemaining (levelsOrders e.book.sellLevels) ∧
  depthVolume e.depth.buyDepth =
    (sumRemaining (levelsOrders e.book.buyLevels) : Int) ∧
  depthVolume e.depth.sellDepth =
    (sumRemaining (levelsOrders e.book.sellLevels) : Int)

/-- Engine coherence is decidable. -/
instance (e : Engine) : Decidable (engineCoherent e) := by
  unfold engineCoherent
  infer_instance

/-! ## Concrete sample data (spec scenario S3 and relatives), used to
instantiate the theorems on closed inputs.  Quantities are scaled by ten
(`0.3` is `3`). -/

/-- A resting GTC ask at 100 for 0.3 (spec scenario S3's maker). -/
def wAsk : Order :=
  { id := 1, side := Side.Sell, otype := OrderType.Limit,
    tif := TimeInForce.GTC, price := 100, baseAmount := 3, remainingBase := 3,
    filledBase := 0, status := OrderStatus.New }

/-- A second resting GTC ask at 100 for 0.2, behind `wAsk` in time. -/
def wAsk2 : Order :=
  { id := 3, side := Side.Sell, otype := OrderType.Limit,
    tif := TimeInForce.GTC, price := 100, baseAmount := 2, remainingBase := 2,
    filledBase := 0, status := OrderStatus.New }

/-- The ask level at 100 holding `wAsk` then `wAsk2`. -/
def wLevel : PriceLevel :=
  { price := 100, orders := [wAsk, wAsk2], totalVolume := 5 }

/-- A book with one ask level at 100 (volume 0.5) and an empty bid side. -/
def wBook : OrderBook :=
  { buyLevels := [], sellLevels := [wLevel], bestBid := none,
    bestAsk := some 100, lastTradePrice := none }

/-- An IOC limit bid at 100 for 1.0 (spec scenario S3's taker). -/
def wBidIOC : Order :=
  { id := 2, side := Side.Buy, otype := OrderType.Limit,
    tif := TimeInForce.IOC, price := 100, baseAmount := 10,
    remainingBase := 10, filledBase := 0, status := OrderStatus.New }

/-- A GTC limit bid at 100 for 1.0. -/
def wBidGTC : Order :=
  { wBidIOC with tif := TimeInForce.GTC }

/-- An FOK limit bid at 100 for 0.4 (coverable by the 0.5 resting). -/
def wBidFOK : Order :=
  { id := 4, side := Side.Buy, otype := OrderType.Limit,
    tif := TimeInForce.FOK, price := 100, baseAmount := 4, remainingBase := 4,
    filledBase := 0, status := OrderStatus.New }

/-- An FOK limit bid at 100 for 1.0 (not coverable). -/
def wBidFOKBig : Order :=
  { wBidFOK with id := 5, baseAmount := 10, remainingBase := 10 }

/-- An engine whose depth tracker agrees with `wBook`. -/
def wEngine : Engine :=
  { book := wBook,
    depth := { buyDepth := [], sellDepth := [(100, 5)] } }

/-- A manager with one registered, halted instrument (id 5). -/
def wManager : Manager :=
  { engines := [(5, wEngine)], halted := [5] }

end Matching

namespace Frontend

/-- C9: the frontend side conversions form a bijection: converting a frontend
side to backend and back is the identity, and converting a backend side to
frontend and back is the identity. -/
theorem side_conversions_bijective :
    (∀ s : OrderSide,
      convertOrderSideToFrontend (convertOrderSideToBackend s) = s) ∧
    (∀ b : BackendOrderSide,
      convertOrderSideToBackend (convertOrderSideToFrontend b) = b) := by
  constructor
  · intro s; cases s <;> rfl
  · intro b; cases b <;> rfl

end Frontend

namespace Matching

/-! ## Basic lemmas -/

@[simp]
lemma sumRemaining_nil : sumRemaining [] = 0 := rfl

@[simp]
lemma sumRemaining_cons (o : Order) (os : List Order) :
    sumRemaining (o :: os) = o.remainingBase + sumRemaining os := by
  simp [sumRemaining]

@[simp]
lemma sumRemaining_append (l₁ l₂ : List Order) :
    sumRemaining (l₁ ++ l₂) = sumRemaining l₁ + sumRemaining l₂ := by
  simp [sumRemaining]

@[simp]
lemma sumBases_nil : sumBases [] = 0 := rfl

@[simp]
lemma sumBases_cons (t : Trade) (ts : List Trade) :
    sumBases (t :: ts) = t.baseAmount + sumBases ts := by
  simp [sumBases]

@[simp]
lemma sumBases_append (l₁ l₂ : List Trade) :
    sumBases (l₁ ++ l₂) = sumBases l₁ + sumBases l₂ := by
  simp [sumBases]

@[simp]
lemma levelsOrders_nil : levelsOrders [] = [] := rfl

@[simp]
lemma levelsOrders_cons (lvl : PriceLevel) (rest : List PriceLevel) :
    levelsOrders (lvl :: rest) = lvl.orders ++ levelsOrders rest := rfl

@[simp]
lemma levelsOrders_append (l₁ l₂ : List PriceLevel) :
    levelsOrders (l₁ ++ l₂) = levelsOrders l₁ ++ levelsOrders l₂ := by
  induction l₁ with
  | nil => simp
  | cons lvl rest ih => simp [ih]

@[simp]
lemma levelsVolume_nil : levelsVolume [] = 0 := rfl

@[simp]
lemma levelsVolume_cons (lvl : PriceLevel) (rest : List PriceLevel) :
    levelsVolume (lvl :: rest) = lvl.totalVolume + levelsVolume rest := by
  simp [levelsVolume]

@[simp]
lemma fillOrder_id (o : Order) (q : Nat) : (fillOrder o q).id = o.id := rfl

@[simp]
lemma fillOrder_side (o : Order) (q : Nat) : (fillOrder o q).side = o.side := rfl

@[simp]
lemma fillOrder_price (o : Order) (q : Nat) : (fillOrder o q).price = o.price := rfl

@[simp]
lemma fillOrder_otype (o : Order) (q : Nat) : (fillOrder o q).otype = o.otype := rfl

@[simp]
lemma fillOrder_tif (o : Order) (q : Nat) : (fillOrder o q).tif = o.tif := rfl

@[simp]
lemma fillOrder_baseAmount (o : Order) (q : Nat) :
    (fillOrder o q).baseAmount = o.baseAmount := rfl

@[simp]
lemma fillOrder_status (o : Order) (q : Nat) :
    (fillOrder o q).status = o.status := rfl

@[simp]
lemma fillOrder_remainingBase (o : Order) (q : Nat) :
    (fillOrder o q).remainingBase = o.remainingBase - q := rfl

@[simp]
lemma fillOrder_zero (o : Order) : fillOrder o 0 = o := by
  cases o; simp [fillOrder]

lemma fillOrder_fillOrder (o : Order) (a b : Nat) :
    fillOrder (fillOrder o a) b = fillOrder o (a + b) := by
  cases o; simp [fillOrder]; omega

lemma isOrderComplete_iff (o : Order) :
    isOrderComplete o = true ↔ o.remainingBase = 0 := by
  simp [isOrderComplete]

lemma isOrderComplete_false_iff (o : Order) :
    isOrderComplete o = false ↔ 0 < o.remainingBase := by
  simp [isOrderComplete]; omega

/-! ## Lemmas about `matchMakers` -/

/-- The taker returned by `matchMakers` is the input taker filled by the total
executed quantity. -/
lemma matchMakers_taker (taker : Order) (p : Nat) (makers : List Order) :
    (matchMakers taker p makers).1 =
      fillOrder taker (sumBases (matchMakers taker p makers).2.2) := by
  induction makers generalizing taker with
  | nil => simp [matchMakers]
  | cons maker rest ih =>
    simp only [matchMakers]
    split
    · simp
    · split
      · simp only [sumBases_cons]
        rw [ih]
        rw [fillOrder_fillOrder]
      · simp

/-- The executed quantity never exceeds the taker's remaining amount. -/
lemma matchMakers_exec_le (taker : Order) (p : Nat) (makers : List Order) :
    sumBases (matchMakers taker p makers).2.2 ≤ taker.remainingBase := by
  induction makers generalizing taker with
  | nil => simp [matchMakers]
  | cons maker rest ih =>
    simp only [matchMakers]
    split
    · simp
    · split
      · simp only [sumBases_cons]
        have h := ih (fillOrder taker (min taker.remainingBase maker.remainingBase))
        simp only [fillOrder_remainingBase] at h
        omega
      · simp only [sumBases_cons, sumBases_nil]
        omega

/-- The total executed quantity is the minimum of the taker's remaining amount
and the makers' total remaining amount. -/
lemma matchMakers_exec (taker : Order) (p : Nat) (makers : List Order) :
    sumBases (matchMakers taker p makers).2.2 =
      min taker.remainingBase (sumRemaining makers) := by
  induction makers generalizing taker with
  | nil => simp [matchMakers]
  | cons maker rest ih =>
    simp only [matchMakers]
    split
    · rename_i hc
      rw [isOrderComplete_iff] at hc
      simp [hc]
    · rename_i hc
      rw [Bool.not_eq_true, isOrderComplete_false_iff] at hc
      split
      · rename_i hm
        simp only [fillOrder_remainingBase] at hm
        simp only [sumBases_cons]
        rw [ih]
        simp only [fillOrder_remainingBase, sumRemaining_cons]
        omega
      · rename_i hm
        simp only [fillOrder_remainingBase] at hm
        simp only [sumBases_cons, sumBases_nil, sumRemaining_cons]
        omega

/-- The makers remaining after `matchMakers`, with the executed quantity, make
up the original makers' total remaining amount. -/
lemma matchMakers_makers_sum (taker : Order) (p : Nat) (makers : List Order) :
    sumRemaining (matchMakers taker p makers).2.1 +
      sumBases (matchMakers taker p makers).2.2 = sumRemaining makers := by
  induction makers generalizing taker with
  | nil => simp [matchMakers]
  | cons maker rest ih =>
    simp only [matchMakers]
    split
    · simp
    · rename_i hc
      rw [Bool.not_eq_true, isOrderComplete_false_iff] at hc
      split
      · rename_i hm
        simp only [fillOrder_remainingBase] at hm
        simp only [sumBases_cons]
        have h := ih (fillOrder taker (min taker.remainingBase maker.remainingBase))
        simp only [sumRemaining_cons]
        omega
      · rename_i hm
        simp only [fillOrder_remainingBase] at hm
        simp only [sumRemaining_cons, sumBases_cons, sumBases_nil,
          fillOrder_remainingBase]
        omega

end Matching

namespace Matching

/-- Unfolding equation: a complete taker matches nothing. -/
lemma matchMakers_cons_complete (taker maker : Order) (p : Nat)
    (rest : List Order) (h : taker.remainingBase = 0) :
    matchMakers taker p (maker :: rest) = (taker, maker :: rest, []) := by
  simp [matchMakers, isOrderComplete, h]

/-- Unfolding equation: a maker with no more than the taker's remaining amount
is fully filled and popped, and matching continues on the remaining queue. -/
lemma matchMakers_cons_pop (taker maker : Order) (p : Nat) (rest : List Order)
    (h : 0 < taker.remainingBase) (h2 : maker.remainingBase ≤ taker.remainingBase) :
    matchMakers taker p (maker :: rest) =
      ((matchMakers (fillOrder taker maker.remainingBase) p rest).1,
       (matchMakers (fillOrder taker maker.remainingBase) p rest).2.1,
       { makerOrderId := maker.id, takerOrderId := taker.id,
         baseAmount := maker.remainingBase, price := p } ::
         (matchMakers (fillOrder taker maker.remainingBase) p rest).2.2) := by
  have hmin : min taker.remainingBase maker.remainingBase = maker.remainingBase :=
    Nat.min_eq_right h2
  have hcf : isOrderComplete taker = false := by
    rw [isOrderComplete_false_iff]; exact h
  simp [matchMakers, hcf, hmin]

/-- Unfolding equation: a maker with more than the taker's remaining amount is
partially filled, stays at the head, and matching stops. -/
lemma matchMakers_cons_part (taker maker : Order) (p : Nat)
    (rest : List Order) (h : 0 < taker.remainingBase)
    (h2 : taker.remainingBase < maker.remainingBase) :
    matchMakers taker p (maker :: rest) =
      (fillOrder taker taker.remainingBase,
       fillOrder maker taker.remainingBase :: rest,
       [{ makerOrderId := maker.id, takerOrderId := taker.id,
          baseAmount := taker.remainingBase, price := p }]) := by
  have hmin : min taker.remainingBase maker.remainingBase = taker.remainingBase :=
    Nat.min_eq_left (Nat.le_of_lt h2)
  have hcf : isOrderComplete taker = false := by
    rw [isOrderComplete_false_iff]; exact h
  have hne : ¬ (maker.remainingBase - taker.remainingBase = 0) := by omega
  simp [matchMakers, hcf, hmin, hne]

/-- Every trade emitted by `matchMakers` carries the level price, the taker's
id, and the id of one of the makers. -/
lemma matchMakers_trade_fields (taker : Order) (p : Nat) (makers : List Order) :
    ∀ t ∈ (matchMakers taker p makers).2.2,
      t.price = p ∧ t.takerOrderId = taker.id ∧
      ∃ o ∈ makers, t.makerOrderId = o.id := by
  induction makers generalizing taker with
  | nil => simp [matchMakers]
  | cons maker rest ih =>
    simp only [matchMakers]
    split
    · simp
    · split
      · intro t ht
        simp only [List.mem_cons] at ht
        rcases ht with rfl | ht
        · exact ⟨rfl, rfl, maker, by simp, rfl⟩
        · have h := ih (fillOrder taker (min taker.remainingBase maker.remainingBase)) t ht
          simp only [fillOrder_id] at h
          exact ⟨h.1, h.2.1, by
            obtain ⟨o, ho, hid⟩ := h.2.2
            exact ⟨o, by simp [ho], hid⟩⟩
      · intro t ht
        simp only [List.mem_cons, List.not_mem_nil, or_false] at ht
        subst ht
        exact ⟨rfl, rfl, maker, by simp, rfl⟩

/-- If all makers have positive remaining amounts then every emitted trade has
a positive base amount. -/
lemma matchMakers_trade_pos (taker : Order) (p : Nat) (makers : List Order)
    (hm : ∀ o ∈ makers, 0 < o.remainingBase) :
    ∀ t ∈ (matchMakers taker p makers).2.2, 0 < t.baseAmount := by
  induction makers generalizing taker with
  | nil => simp [matchMakers]
  | cons maker rest ih =>
    simp only [matchMakers]
    split
    · simp
    · rename_i hc
      rw [Bool.not_eq_true, isOrderComplete_false_iff] at hc
      have hmk : 0 < maker.remainingBase := hm maker (by simp)
      split
      · intro t ht
        simp only [List.mem_cons] at ht
        rcases ht with rfl | ht
        · simp; omega
        · exact ih _ (fun o ho => hm o (by simp [ho])) t ht
      · intro t ht
        simp only [List.mem_cons, List.not_mem_nil, or_false] at ht
        subst ht
        simp; omega

/-- The makers hit by `matchMakers`, in trade order, are exactly an initial
segment of the maker queue. -/
lemma matchMakers_fifo (taker : Order) (p : Nat) (makers : List Order) :
    ((matchMakers taker p makers).2.2).map Trade.makerOrderId =
      (makers.take ((matchMakers taker p makers).2.2).length).map Order.id := by
  induction makers generalizing taker with
  | nil => simp [matchMakers]
  | cons maker rest ih =>
    simp only [matchMakers]
    split
    · simp
    · split
      · simp only [List.map_cons, List.length_cons, List.take_succ_cons]
        rw [ih]
      · simp

/-- `matchMakers` emits at most one trade per maker. -/
lemma matchMakers_length_le (taker : Order) (p : Nat) (makers : List Order) :
    ((matchMakers taker p makers).2.2).length ≤ makers.length := by
  induction makers generalizing taker with
  | nil => simp [matchMakers]
  | cons maker rest ih =>
    simp only [matchMakers]
    split
    · simp
    · split
      · simp only [List.length_cons]
        exact Nat.succ_le_succ (ih _)
      · simp

/-- When the maker queue is exhausted, every maker produced exactly one
trade. -/
lemma matchMakers_empty_length (taker : Order) (p : Nat) (makers : List Order)
    (h : (matchMakers taker p makers).2.1 = []) :
    ((matchMakers taker p makers).2.2).length = makers.length := by
  induction makers generalizing taker with
  | nil => simp [matchMakers]
  | cons maker rest ih =>
    rcases Nat.eq_zero_or_pos taker.remainingBase with hc | hc
    · rw [matchMakers_cons_complete taker maker p rest hc] at h
      simp at h
    · rcases le_or_lt maker.remainingBase taker.remainingBase with h2 | h2
      · rw [matchMakers_cons_pop taker maker p rest hc h2] at h ⊢
        simp only [List.length_cons]
        rw [ih _ h]
      · rw [matchMakers_cons_part taker maker p rest hc h2] at h
        simp at h

/-- If makers remain after `matchMakers`, the taker is complete. -/
lemma matchMakers_rest_complete (taker : Order) (p : Nat) (makers : List Order)
    (h : (matchMakers taker p makers).2.1 ≠ []) :
    (matchMakers taker p makers).1.remainingBase = 0 := by
  induction makers generalizing taker with
  | nil => simp [matchMakers] at h
  | cons maker rest ih =>
    rcases Nat.eq_zero_or_pos taker.remainingBase with hc | hc
    · rw [matchMakers_cons_complete taker maker p rest hc]
      exact hc
    · rcases le_or_lt maker.remainingBase taker.remainingBase with h2 | h2
      · rw [matchMakers_cons_pop taker maker p rest hc h2] at h ⊢
        exact ih _ h
      · rw [matchMakers_cons_part taker maker p rest hc h2]
        simp

/-- The makers left by `matchMakers` keep positive remaining amounts and their
price field. -/
lemma matchMakers_rest_props (taker : Order) (p pp : Nat) (makers : List Order)
    (hm : ∀ o ∈ makers, 0 < o.remainingBase ∧ o.price = pp) :
    ∀ o ∈ (matchMakers taker p makers).2.1, 0 < o.remainingBase ∧ o.price = pp := by
  induction makers generalizing taker with
  | nil => simp [matchMakers]
  | cons maker rest ih =>
    simp only [matchMakers]
    split
    · exact hm
    · split
      · exact ih _ (fun o ho => hm o (by simp [ho]))
      · rename_i hmk
        intro o ho
        simp only [List.mem_cons] at ho
        rcases ho with rfl | ho
        · constructor
          · omega
          · simpa using (hm maker (by simp)).2
        · exact hm o (by simp [ho])

/-- The ids of the makers left by `matchMakers` form a tail of the original
maker id sequence. -/
lemma matchMakers_rest_ids (taker : Order) (p : Nat) (makers : List Order) :
    ∃ k, ((matchMakers taker p makers).2.1).map Order.id =
      (makers.map Order.id).drop k := by
  induction makers generalizing taker with
  | nil => exact ⟨0, by simp [matchMakers]⟩
  | cons maker rest ih =>
    simp only [matchMakers]
    split
    · exact ⟨0, by simp⟩
    · split
      · obtain ⟨k, hk⟩ := ih (fillOrder taker (min taker.remainingBase maker.remainingBase))
        exact ⟨k + 1, by simpa using hk⟩
      · exact ⟨0, by simp⟩

end Matching

namespace Matching

/-! ## Lemmas about `matchAtPriceLevel` and `matchLoop` -/

@[simp]
lemma matchAtPriceLevel_taker (taker : Order) (lvl : PriceLevel) :
    (matchAtPriceLevel taker lvl).1 = (matchMakers taker lvl.price lvl.orders).1 := rfl

@[simp]
lemma matchAtPriceLevel_orders (taker : Order) (lvl : PriceLevel) :
    (matchAtPriceLevel taker lvl).2.1.orders =
      (matchMakers taker lvl.price lvl.orders).2.1 := rfl

@[simp]
lemma matchAtPriceLevel_price (taker : Order) (lvl : PriceLevel) :
    (matchAtPriceLevel taker lvl).2.1.price = lvl.price := rfl

@[simp]
lemma matchAtPriceLevel_volume (taker : Order) (lvl : PriceLevel) :
    (matchAtPriceLevel taker lvl).2.1.totalVolume =
      lvl.totalVolume - sumBases (matchMakers taker lvl.price lvl.orders).2.2 := rfl

@[simp]
lemma matchAtPriceLevel_trades (taker : Order) (lvl : PriceLevel) :
    (matchAtPriceLevel taker lvl).2.2 =
      (matchMakers taker lvl.price lvl.orders).2.2 := rfl

@[simp]
lemma isPriceAcceptable_fillOrder (o : Order) (q x : Nat) :
    isPriceAcceptable (fillOrder o q) x = isPriceAcceptable o x := rfl

@[simp]
lemma isMarket_fillOrder (o : Order) (q : Nat) :
    (fillOrder o q).isMarket = o.isMarket := rfl

@[simp]
lemma matchLoop_nil (taker : Order) : matchLoop taker [] = (taker, [], []) := rfl

/-- Unfolding equation: a complete taker stops the loop immediately. -/
lemma matchLoop_cons_complete (taker : Order) (lvl : PriceLevel)
    (rest : List PriceLevel) (h : taker.remainingBase = 0) :
    matchLoop taker (lvl :: rest) = (taker, lvl :: rest, []) := by
  simp [matchLoop, isOrderComplete, h]

/-- Unfolding equation: a limit taker whose limit does not cross the best
level's price stops the loop. -/
lemma matchLoop_cons_stop (taker : Order) (lvl : PriceLevel)
    (rest : List PriceLevel) (h : isOrderComplete taker = false)
    (hmkt : taker.isMarket = false)
    (hpa : isPriceAcceptable taker lvl.price = false) :
    matchLoop taker (lvl :: rest) = (taker, lvl :: rest, []) := by
  simp [matchLoop, h, hmkt, hpa]

/-- Unfolding equation: an incomplete taker that crosses (or is a market
order) matches at the best level; if the level empties the loop continues on
the remaining levels, otherwise it stops with the partially consumed level at
the head. -/
lemma matchLoop_cons_go (taker : Order) (lvl : PriceLevel)
    (rest : List PriceLevel) (h : isOrderComplete taker = false)
    (hgo : taker.isMarket = true ∨ isPriceAcceptable taker lvl.price = true) :
    matchLoop taker (lvl :: rest) =
      if ((matchAtPriceLevel taker lvl).2.1.orders).isEmpty then
        ((matchLoop (matchAtPriceLevel taker lvl).1 rest).1,
         (matchLoop (matchAtPriceLevel taker lvl).1 rest).2.1,
         (matchAtPriceLevel taker lvl).2.2 ++
           (matchLoop (matchAtPriceLevel taker lvl).1 rest).2.2)
      else
        ((matchAtPriceLevel taker lvl).1,
         (matchAtPriceLevel taker lvl).2.1 :: rest,
         (matchAtPriceLevel taker lvl).2.2) := by
  rcases hgo with hm | hp
  · simp only [matchLoop, h, Bool.false_eq_true, if_false, hm, Bool.not_true,
      Bool.false_and, ite_false]
  · simp only [matchLoop, h, Bool.false_eq_true, if_false, hp, Bool.not_true,
      Bool.and_false, ite_false]

/-- The taker returned by the loop is the input taker filled by the total
executed quantity. -/
lemma matchLoop_taker (taker : Order) (levels : List PriceLevel) :
    (matchLoop taker levels).1 =
      fillOrder taker (sumBases (matchLoop taker levels).2.2) := by
  induction levels generalizing taker with
  | nil => simp
  | cons lvl rest ih =>
    rcases Nat.eq_zero_or_pos taker.remainingBase with hc | hc
    · rw [matchLoop_cons_complete taker lvl rest hc]
      simp
    · have hcf : isOrderComplete taker = false := by
        rw [isOrderComplete_false_iff]; exact hc
      by_cases hgo : taker.isMarket = true ∨ isPriceAcceptable taker lvl.price = true
      · rw [matchLoop_cons_go taker lvl rest hcf hgo]
        split
        · simp only [matchAtPriceLevel_taker, matchAtPriceLevel_trades,
            sumBases_append]
          rw [ih, matchMakers_taker taker lvl.price lvl.orders,
            fillOrder_fillOrder]
        · simp only [matchAtPriceLevel_taker, matchAtPriceLevel_trades]
          exact matchMakers_taker taker lvl.price lvl.orders
      · push_neg at hgo
        rw [matchLoop_cons_stop taker lvl rest hcf
          (by simpa using hgo.1) (by simpa using hgo.2)]
        simp

/-- The loop's executed quantity never exceeds the taker's remaining
amount. -/
lemma matchLoop_exec_le (taker : Order) (levels : List PriceLevel) :
    sumBases (matchLoop taker levels).2.2 ≤ taker.remainingBase := by
  induction levels generalizing taker with
  | nil => simp
  | cons lvl rest ih =>
    rcases Nat.eq_zero_or_pos taker.remainingBase with hc | hc
    · rw [matchLoop_cons_complete taker lvl rest hc]
      simp
    · have hcf : isOrderComplete taker = false := by
        rw [isOrderComplete_false_iff]; exact hc
      by_cases hgo : taker.isMarket = true ∨ isPriceAcceptable taker lvl.price = true
      · rw [matchLoop_cons_go taker lvl rest hcf hgo]
        have h1 := matchMakers_exec_le taker lvl.price lvl.orders
        split
        · simp only [sumBases_append, matchAtPriceLevel_trades]
          have h2 := ih (matchAtPriceLevel taker lvl).1
          have h3 : (matchAtPriceLevel taker lvl).1.remainingBase =
              taker.remainingBase -
                sumBases (matchMakers taker lvl.price lvl.orders).2.2 := by
            rw [matchAtPriceLevel_taker,
              matchMakers_taker taker lvl.price lvl.orders]
            simp
          simp only [matchAtPriceLevel_trades] at h2
          omega
        · simpa using h1
      · push_neg at hgo
        rw [matchLoop_cons_stop taker lvl rest hcf
          (by simpa using hgo.1) (by simpa using hgo.2)]
        simp

end Matching

namespace Matching

/-- For a limit (non-market) taker, the executed quantity is the minimum of
the taker's remaining amount and the resting volume on the levels its limit
crosses: the loop runs exactly while the best opposite price crosses. -/
lemma matchLoop_exec (taker : Order) (levels : List PriceLevel)
    (hmkt : taker.isMarket = false) :
    sumBases (matchLoop taker levels).2.2 =
      min taker.remainingBase
        (sumRemaining (levelsOrders (acceptablePrefix taker levels))) := by
  induction levels generalizing taker with
  | nil => simp [acceptablePrefix]
  | cons lvl rest ih =>
    rcases Nat.eq_zero_or_pos taker.remainingBase with hc | hc
    · rw [matchLoop_cons_complete taker lvl rest hc]
      simp [hc]
    · have hcf : isOrderComplete taker = false := by
        rw [isOrderComplete_false_iff]; exact hc
      by_cases hpa : isPriceAcceptable taker lvl.price = true
      · rw [matchLoop_cons_go taker lvl rest hcf (Or.inr hpa)]
        have hpre : acceptablePrefix taker (lvl :: rest) =
            lvl :: acceptablePrefix taker rest := by
          simp [acceptablePrefix, List.takeWhile_cons, hpa]
        rw [hpre]
        have hexec := matchMakers_exec taker lvl.price lvl.orders
        have hsum := matchMakers_makers_sum taker lvl.price lvl.orders
        split
        · rename_i hemp
          simp only [matchAtPriceLevel_orders, List.isEmpty_iff] at hemp
          rw [hemp] at hsum
          simp only [sumRemaining_nil, Nat.zero_add] at hsum
          simp only [sumBases_append, matchAtPriceLevel_trades]
          have htk : (matchAtPriceLevel taker lvl).1.isMarket = false := by
            rw [matchAtPriceLevel_taker,
              matchMakers_taker taker lvl.price lvl.orders]
            simp [hmkt]
          have hrem : (matchAtPriceLevel taker lvl).1.remainingBase =
              taker.remainingBase -
                sumBases (matchMakers taker lvl.price lvl.orders).2.2 := by
            rw [matchAtPriceLevel_taker,
              matchMakers_taker taker lvl.price lvl.orders]
            simp
          have hpre2 : acceptablePrefix (matchAtPriceLevel taker lvl).1 rest =
              acceptablePrefix taker rest := by
            rw [matchAtPriceLevel_taker,
              matchMakers_taker taker lvl.price lvl.orders]
            simp [acceptablePrefix]
          rw [ih _ htk, hpre2, hrem]
          simp only [levelsOrders_cons, sumRemaining_append]
          omega
        · rename_i hne
          simp only [matchAtPriceLevel_orders, List.isEmpty_iff] at hne
          have hcomp := matchMakers_rest_complete taker lvl.price lvl.orders hne
          rw [matchMakers_taker taker lvl.price lvl.orders] at hcomp
          simp only [fillOrder_remainingBase] at hcomp
          have hle := matchMakers_exec_le taker lvl.price lvl.orders
          simp only [matchAtPriceLevel_trades]
          simp only [levelsOrders_cons, sumRemaining_append]
          omega
      · rw [matchLoop_cons_stop taker lvl rest hcf hmkt (by simpa using hpa)]
        have hpre : acceptablePrefix taker (lvl :: rest) = [] := by
          simp only [Bool.not_eq_true] at hpa
          simp [acceptablePrefix, List.takeWhile_cons, hpa]
        rw [hpre]
        simp

/-- Volume conservation through the loop: the volume left on the opposite side
plus the executed quantity is the original resting volume. -/
lemma matchLoop_conservation (taker : Order) (levels : List PriceLevel) :
    sumRemaining (levelsOrders (matchLoop taker levels).2.1) +
      sumBases (matchLoop taker levels).2.2 =
      sumRemaining (levelsOrders levels) := by
  induction levels generalizing taker with
  | nil => simp
  | cons lvl rest ih =>
    rcases Nat.eq_zero_or_pos taker.remainingBase with hc | hc
    · rw [matchLoop_cons_complete taker lvl rest hc]
      simp
    · have hcf : isOrderComplete taker = false := by
        rw [isOrderComplete_false_iff]; exact hc
      by_cases hgo : taker.isMarket = true ∨ isPriceAcceptable taker lvl.price = true
      · rw [matchLoop_cons_go taker lvl rest hcf hgo]
        have hsum := matchMakers_makers_sum taker lvl.price lvl.orders
        split
        · rename_i hemp
          simp only [matchAtPriceLevel_orders, List.isEmpty_iff] at hemp
          rw [hemp] at hsum
          simp only [sumRemaining_nil, Nat.zero_add] at hsum
          have h2 := ih (matchAtPriceLevel taker lvl).1
          simp only [sumBases_append, matchAtPriceLevel_trades,
            levelsOrders_cons, sumRemaining_append]
          omega
        · simp only [matchAtPriceLevel_trades, levelsOrders_cons,
            sumRemaining_append, matchAtPriceLevel_orders]
          omega
      · push_neg at hgo
        rw [matchLoop_cons_stop taker lvl rest hcf
          (by simpa using hgo.1) (by simpa using hgo.2)]
        simp

/-- Every trade emitted by the loop for a limit taker is at a price the
taker's limit crosses, has a positive base amount when the book side is
well-formed, and carries the taker's id. -/
lemma matchLoop_trades (taker : Order) (levels : List PriceLevel)
    (hmkt : taker.isMarket = false)
    (hpos : ∀ lvl ∈ levels, ∀ o ∈ lvl.orders, 0 < o.remainingBase) :
    ∀ t ∈ (matchLoop taker levels).2.2,
      isPriceAcceptable taker t.price = true ∧ 0 < t.baseAmount ∧
      t.takerOrderId = taker.id := by
  induction levels generalizing taker with
  | nil => simp
  | cons lvl rest ih =>
    rcases Nat.eq_zero_or_pos taker.remainingBase with hc | hc
    · rw [matchLoop_cons_complete taker lvl rest hc]
      simp
    · have hcf : isOrderComplete taker = false := by
        rw [isOrderComplete_false_iff]; exact hc
      by_cases hpa : isPriceAcceptable taker lvl.price = true
      · rw [matchLoop_cons_go taker lvl rest hcf (Or.inr hpa)]
        have hfields := matchMakers_trade_fields taker lvl.price lvl.orders
        have hpos1 := matchMakers_trade_pos taker lvl.price lvl.orders
          (fun o ho => hpos lvl (by simp) o ho)
        split
        · intro t ht
          simp only [matchAtPriceLevel_trades, List.mem_append] at ht
          rcases ht with ht | ht
          · obtain ⟨hp, htk, -⟩ := hfields t ht
            exact ⟨hp ▸ hpa, hpos1 t ht, htk⟩
          · have htk2 : (matchAtPriceLevel taker lvl).1 =
                fillOrder taker (sumBases (matchMakers taker lvl.price lvl.orders).2.2) := by
              rw [matchAtPriceLevel_taker,
                matchMakers_taker taker lvl.price lvl.orders]
            have h := ih (matchAtPriceLevel taker lvl).1
              (by rw [htk2]; simp [hmkt])
              (fun l hl o ho => hpos l (by simp [hl]) o ho) t ht
            rw [htk2] at h
            simpa using h
        · intro t ht
          simp only [matchAtPriceLevel_trades] at ht
          obtain ⟨hp, htk, -⟩ := hfields t ht
          exact ⟨hp ▸ hpa, hpos1 t ht, htk⟩
      · rw [matchLoop_cons_stop taker lvl rest hcf hmkt (by simpa using hpa)]
        simp

end Matching

namespace Matching

/-- The makers hit by the whole loop, in trade order, are exactly an initial
segment of the opposite side's priority-ordered resting orders. -/
lemma matchLoop_fifo (taker : Order) (levels : List PriceLevel) :
    ((matchLoop taker levels).2.2).map Trade.makerOrderId =
      ((levelsOrders levels).take ((matchLoop taker levels).2.2).length).map
        Order.id := by
  induction levels generalizing taker with
  | nil => simp
  | cons lvl rest ih =>
    rcases Nat.eq_zero_or_pos taker.remainingBase with hc | hc
    · rw [matchLoop_cons_complete taker lvl rest hc]
      simp
    · have hcf : isOrderComplete taker = false := by
        rw [isOrderComplete_false_iff]; exact hc
      by_cases hgo : taker.isMarket = true ∨ isPriceAcceptable taker lvl.price = true
      · rw [matchLoop_cons_go taker lvl rest hcf hgo]
        split
        · rename_i hemp
          simp only [matchAtPriceLevel_orders, List.isEmpty_iff] at hemp
          have hfull := matchMakers_empty_length taker lvl.price lvl.orders hemp
          simp only [matchAtPriceLevel_trades, List.map_append,
            List.length_append, levelsOrders_cons]
          rw [matchMakers_fifo taker lvl.price lvl.orders, hfull,
            List.take_length, ih]
          have key : (lvl.orders ++ levelsOrders rest).take
              (lvl.orders.length +
                ((matchLoop (matchAtPriceLevel taker lvl).1 rest).2.2).length) =
              lvl.orders ++ (levelsOrders rest).take
                ((matchLoop (matchAtPriceLevel taker lvl).1 rest).2.2).length := by
            simp [List.take_append_eq_append_take]
          rw [key, List.map_append]
        · rename_i hne
          simp only [matchAtPriceLevel_trades, levelsOrders_cons]
          rw [matchMakers_fifo taker lvl.price lvl.orders]
          rw [List.take_append_of_le_length
            (matchMakers_length_le taker lvl.price lvl.orders)]
      · push_neg at hgo
        rw [matchLoop_cons_stop taker lvl rest hcf
          (by simpa using hgo.1) (by simpa using hgo.2)]
        simp

end Matching

namespace Matching

@[simp]
lemma sideIds_nil : sideIds [] = [] := rfl

@[simp]
lemma sideIds_cons (lvl : PriceLevel) (rest : List PriceLevel) :
    sideIds (lvl :: rest) = lvl.orders.map Order.id ++ sideIds rest := by
  simp [sideIds]

/-- The matching loop preserves side well-formedness. -/
lemma matchLoop_sideWF (better : Nat → Nat → Bool) (taker : Order)
    (levels : List PriceLevel) (hWF : sideWF better levels) :
    sideWF better (matchLoop taker levels).2.1 := by
  induction levels generalizing taker with
  | nil => simpa using hWF
  | cons lvl rest ih =>
    rcases Nat.eq_zero_or_pos taker.remainingBase with hc | hc
    · rw [matchLoop_cons_complete taker lvl rest hc]
      exact hWF
    · have hcf : isOrderComplete taker = false := by
        rw [isOrderComplete_false_iff]; exact hc
      by_cases hgo : taker.isMarket = true ∨ isPriceAcceptable taker lvl.price = true
      · rw [matchLoop_cons_go taker lvl rest hcf hgo]
        have hlvl : levelWF lvl := hWF.2 lvl (by simp)
        have hsum := matchMakers_makers_sum taker lvl.price lvl.orders
        split
        · rename_i hemp
          refine ih (matchAtPriceLevel taker lvl).1 ⟨?_, ?_⟩
          · exact (List.pairwise_cons.mp hWF.1).2
          · exact fun l hl => hWF.2 l (by simp [hl])
        · rename_i hne
          simp only [matchAtPriceLevel_orders, List.isEmpty_iff] at hne
          constructor
          · rw [List.pairwise_cons]
            refine ⟨?_, (List.pairwise_cons.mp hWF.1).2⟩
            intro l hl
            simpa using (List.pairwise_cons.mp hWF.1).1 l hl
          · intro l hl
            simp only [List.mem_cons] at hl
            rcases hl with rfl | hl
            · refine ⟨by simpa using hne, ?_, ?_⟩
              · simp only [matchAtPriceLevel_orders, matchAtPriceLevel_price]
                exact matchMakers_rest_props taker lvl.price lvl.price lvl.orders
                  (fun o ho => hlvl.2.1 o ho)
              · simp only [matchAtPriceLevel_orders, matchAtPriceLevel_price,
                  matchAtPriceLevel_volume]
                have hcache := hlvl.2.2
                omega
            · exact hWF.2 l (by simp [hl])
      · push_neg at hgo
        rw [matchLoop_cons_stop taker lvl rest hcf
          (by simpa using hgo.1) (by simpa using hgo.2)]
        exact hWF

/-- The ids resting on the opposite side after the loop form a tail of the ids
resting before it. -/
lemma matchLoop_ids (taker : Order) (levels : List PriceLevel) :
    ∃ k, sideIds (matchLoop taker levels).2.1 = (sideIds levels).drop k := by
  induction levels generalizing taker with
  | nil => exact ⟨0, by simp⟩
  | cons lvl rest ih =>
    rcases Nat.eq_zero_or_pos taker.remainingBase with hc | hc
    · rw [matchLoop_cons_complete taker lvl rest hc]
      exact ⟨0, by simp⟩
    · have hcf : isOrderComplete taker = false := by
        rw [isOrderComplete_false_iff]; exact hc
      by_cases hgo : taker.isMarket = true ∨ isPriceAcceptable taker lvl.price = true
      · rw [matchLoop_cons_go taker lvl rest hcf hgo]
        split
        · rename_i hemp
          obtain ⟨k₂, hk₂⟩ := ih (matchAtPriceLevel taker lvl).1
          refine ⟨(lvl.orders.map Order.id).length + k₂, ?_⟩
          have key : ∀ (A B : List Nat) (k : Nat),
              (A ++ B).drop (A.length + k) = B.drop k := by
            intro A B k
            simp [List.drop_append_eq_append_drop]
          simp only [sideIds_cons]
          rw [hk₂, key]
        · rename_i hne
          simp only [matchAtPriceLevel_orders, List.isEmpty_iff] at hne
          obtain ⟨k₁, hk₁⟩ := matchMakers_rest_ids taker lvl.price lvl.orders
          have hlt : k₁ < (lvl.orders.map Order.id).length := by
            by_contra hge
            push_neg at hge
            rw [List.drop_eq_nil_iff.mpr hge] at hk₁
            exact hne (by simpa using hk₁)
          refine ⟨k₁, ?_⟩
          simp only [sideIds_cons, matchAtPriceLevel_orders]
          rw [hk₁, List.drop_append_eq_append_drop,
            Nat.sub_eq_zero_of_le (Nat.le_of_lt hlt), List.drop_zero]
      · push_neg at hgo
        rw [matchLoop_cons_stop taker lvl rest hcf
          (by simpa using hgo.1) (by simpa using hgo.2)]
        exact ⟨0, by simp⟩

end Matching

namespace Matching

@[simp]
lemma addOrder_price (lvl : PriceLevel) (o : Order) :
    (lvl.addOrder o).price = lvl.price := rfl

@[simp]
lemma addOrder_orders (lvl : PriceLevel) (o : Order) :
    (lvl.addOrder o).orders = lvl.orders ++ [o] := rfl

@[simp]
lemma addOrder_totalVolume (lvl : PriceLevel) (o : Order) :
    (lvl.addOrder o).totalVolume = lvl.totalVolume + o.remainingBase := rfl

/-- Inserting a resting order adds exactly that order to the side's flattened
order sequence, up to position. -/
lemma insertIntoSide_perm (better : Nat → Nat → Bool) (o : Order)
    (levels : List PriceLevel) :
    (levelsOrders (insertIntoSide better o levels)).Perm
      (o :: levelsOrders levels) := by
  induction levels with
  | nil => simp [insertIntoSide, PriceLevel.new]
  | cons lvl rest ih =>
    simp only [insertIntoSide]
    split
    · simp only [levelsOrders_cons, addOrder_orders, List.append_assoc,
        List.singleton_append]
      exact List.perm_middle
    · split
      · simp [PriceLevel.new]
      · simp only [levelsOrders_cons]
        exact (List.Perm.append_left lvl.orders ih).trans List.perm_middle

/-- The inserted order is resting in a level keyed by its limit price. -/
lemma insertIntoSide_mem (better : Nat → Nat → Bool) (o : Order)
    (levels : List PriceLevel) :
    ∃ lvl ∈ insertIntoSide better o levels,
      lvl.price = o.price ∧ o ∈ lvl.orders := by
  induction levels with
  | nil =>
    refine ⟨(PriceLevel.new o.price).addOrder o, by simp [insertIntoSide], ?_, ?_⟩
    · simp [PriceLevel.new]
    · simp [PriceLevel.new]
  | cons lvl rest ih =>
    simp only [insertIntoSide]
    split
    · rename_i heq
      exact ⟨lvl.addOrder o, by simp, by simpa using heq, by simp⟩
    · split
      · refine ⟨(PriceLevel.new o.price).addOrder o, by simp, ?_, ?_⟩
        · simp [PriceLevel.new]
        · simp [PriceLevel.new]
      · obtain ⟨l', hl', hp, hm⟩ := ih
        exact ⟨l', by simp [hl'], hp, hm⟩

/-- Every level after an insert is keyed either by the inserted order's price
or by a price already present. -/
lemma insertIntoSide_prices (better : Nat → Nat → Bool) (o : Order)
    (levels : List PriceLevel) :
    ∀ l' ∈ insertIntoSide better o levels,
      l'.price = o.price ∨ ∃ l ∈ levels, l'.price = l.price := by
  induction levels with
  | nil =>
    intro l' hl'
    simp only [insertIntoSide, List.mem_singleton] at hl'
    subst hl'
    left
    simp [PriceLevel.new]
  | cons lvl rest ih =>
    simp only [insertIntoSide]
    split
    · intro l' hl'
      rcases List.mem_cons.mp hl' with h | h
      · right; exact ⟨lvl, List.mem_cons_self _ _, by rw [h]; simp⟩
      · right; exact ⟨l', List.mem_cons_of_mem _ h, rfl⟩
    · split
      · intro l' hl'
        rcases List.mem_cons.mp hl' with h | h
        · left; rw [h]; simp [PriceLevel.new]
        · right; exact ⟨l', h, rfl⟩
      · intro l' hl'
        rcases List.mem_cons.mp hl' with h | h
        · right; exact ⟨lvl, List.mem_cons_self _ _, by rw [h]⟩
        · rcases ih l' h with hp | ⟨l, hl, hp⟩
          · left; exact hp
          · right; exact ⟨l, List.mem_cons_of_mem _ hl, hp⟩

/-- Sorted insert preserves side well-formedness, for a total and transitive
strict comparator. -/
lemma insertIntoSide_sideWF (better : Nat → Nat → Bool) (o : Order)
    (levels : List PriceLevel)
    (htot : ∀ a b : Nat, a ≠ b → better a b = true ∨ better b a = true)
    (htrans : ∀ a b c : Nat,
      better a b = true → better b c = true → better a c = true)
    (hWF : sideWF better levels) (hpos : 0 < o.remainingBase) :
    sideWF better (insertIntoSide better o levels) := by
  induction levels with
  | nil =>
    constructor
    · simp [insertIntoSide]
    · intro l hl
      simp only [insertIntoSide, List.mem_singleton] at hl
      subst hl
      refine ⟨by simp [PriceLevel.new], ?_, by simp [PriceLevel.new, sumRemaining]⟩
      intro x hx
      simp only [addOrder_orders, PriceLevel.new, List.nil_append,
        List.mem_singleton] at hx
      subst hx
      exact ⟨hpos, rfl⟩
  | cons lvl rest ih =>
    obtain ⟨hpair, hlvls⟩ := hWF
    simp only [insertIntoSide]
    split
    · rename_i heq
      have hlvl := hlvls lvl (by simp)
      constructor
      · rw [List.pairwise_cons]
        refine ⟨?_, (List.pairwise_cons.mp hpair).2⟩
        intro l hl
        simpa using (List.pairwise_cons.mp hpair).1 l hl
      · intro l hl
        rcases List.mem_cons.mp hl with h | h
        · rw [h]
          refine ⟨by simp, ?_, ?_⟩
          · intro x hx
            simp only [addOrder_orders, List.mem_append,
              List.mem_singleton] at hx
            rcases hx with hx | rfl
            · exact ⟨(hlvl.2.1 x hx).1, by simp [(hlvl.2.1 x hx).2]⟩
            · exact ⟨hpos, by simp [heq]⟩
          · simp [hlvl.2.2, sumRemaining]
        · exact hlvls l (List.mem_cons_of_mem _ h)
    · rename_i hneq
      split
      · rename_i hb
        constructor
        · rw [List.pairwise_cons]
          constructor
          · intro l hl
            simp only [List.mem_cons] at hl
            rcases hl with rfl | hl
            · simpa [PriceLevel.new] using hb
            · have h1 : better lvl.price l.price = true :=
                (List.pairwise_cons.mp hpair).1 l hl
              have : better o.price l.price = true := htrans _ _ _ hb h1
              simpa [PriceLevel.new] using this
          · exact hpair
        · intro l hl
          rcases List.mem_cons.mp hl with h | h
          · rw [h]
            refine ⟨by simp [PriceLevel.new], ?_,
              by simp [PriceLevel.new, sumRemaining]⟩
            intro x hx
            simp only [addOrder_orders, PriceLevel.new, List.nil_append,
              List.mem_singleton] at hx
            subst hx
            exact ⟨hpos, rfl⟩
          · exact hlvls l h
      · rename_i hnb
        have htail : sideWF better rest :=
          ⟨(List.pairwise_cons.mp hpair).2, fun l hl => hlvls l (by simp [hl])⟩
        have hins := ih htail
        constructor
        · rw [List.pairwise_cons]
          refine ⟨?_, hins.1⟩
          intro l hl
          rcases insertIntoSide_prices better o rest l hl with hp | ⟨l₀, hl₀, hp⟩
          · rw [hp]
            rcases htot lvl.price o.price hneq with h | h
            · exact h
            · exact absurd h (by simpa using hnb)
          · rw [hp]
            exact (List.pairwise_cons.mp hpair).1 l₀ hl₀
        · intro l hl
          rcases List.mem_cons.mp hl with h | h
          · rw [h]
            exact hlvls lvl (List.mem_cons_self _ _)
          · exact hins.2 l h

end Matching

namespace Matching

/-- Partitioning a queue by an id splits its remaining volume. -/
lemma sumRemaining_filter_id (oid : Nat) (l : List Order) :
    sumRemaining (l.filter (fun o => o.id != oid)) +
      sumRemaining (l.filter (fun o => o.id == oid)) = sumRemaining l := by
  induction l with
  | nil => simp
  | cons o os ih =>
    by_cases h : o.id = oid
    · have h1 : (o.id == oid) = true := by simpa using h
      have h2 : (o.id != oid) = false := by simp [bne, h1]
      simp only [List.filter_cons, h1, h2, Bool.false_eq_true, if_false,
        if_true, sumRemaining_cons]
      omega
    · have h1 : (o.id == oid) = false := by simpa using h
      have h2 : (o.id != oid) = true := by simp [bne, h1]
      simp only [List.filter_cons, h1, h2, Bool.false_eq_true, if_false,
        if_true, sumRemaining_cons]
      omega

/-- Removal conserves volume: the volume left plus the removed orders' volume
is the original volume. -/
lemma removeOrderId_sum (oid : Nat) (levels : List PriceLevel) :
    sumRemaining (levelsOrders (removeOrderId oid levels).1) +
      sumRemaining (removeOrderId oid levels).2 =
      sumRemaining (levelsOrders levels) := by
  induction levels with
  | nil => simp [removeOrderId]
  | cons lvl rest ih =>
    simp only [removeOrderId]
    split
    · rename_i hmiss
      simp only [levelsOrders_cons, sumRemaining_append]
      omega
    · rename_i hhit
      have hpart := sumRemaining_filter_id oid lvl.orders
      split
      · rename_i hkeep
        simp only [List.isEmpty_iff] at hkeep
        rw [hkeep] at hpart
        simp only [sumRemaining_nil, Nat.zero_add] at hpart
        simp only [levelsOrders_cons, sumRemaining_append]
        omega
      · simp only [levelsOrders_cons, sumRemaining_append]
        omega

/-- The orders removed by id all carry that id. -/
lemma removeOrderId_removed (oid : Nat) (levels : List PriceLevel) :
    ∀ o ∈ (removeOrderId oid levels).2, o.id = oid := by
  induction levels with
  | nil => simp [removeOrderId]
  | cons lvl rest ih =>
    simp only [removeOrderId]
    split
    · exact ih
    · intro o ho
      have := List.mem_filter.mp (by split at ho <;> exact ho)
      simpa using this.2

/-- Every level after a removal is keyed by a price already present. -/
lemma removeOrderId_prices (oid : Nat) (levels : List PriceLevel) :
    ∀ l' ∈ (removeOrderId oid levels).1,
      ∃ l ∈ levels, l'.price = l.price := by
  induction levels with
  | nil => simp [removeOrderId]
  | cons lvl rest ih =>
    simp only [removeOrderId]
    split
    · intro l' hl'
      rcases List.mem_cons.mp hl' with h | h
      · exact ⟨lvl, List.mem_cons_self _ _, by rw [h]⟩
      · obtain ⟨l, hl, hp⟩ := ih l' h
        exact ⟨l, List.mem_cons_of_mem _ hl, hp⟩
    · split
      · intro l' hl'
        obtain ⟨l, hl, hp⟩ : ∃ l ∈ rest, l'.price = l.price := ⟨l', hl', rfl⟩
        exact ⟨l, List.mem_cons_of_mem _ hl, hp⟩
      · intro l' hl'
        rcases List.mem_cons.mp hl' with h | h
        · exact ⟨lvl, List.mem_cons_self _ _, by rw [h]⟩
        · exact ⟨l', List.mem_cons_of_mem _ h, rfl⟩

/-- Removal preserves side well-formedness. -/
lemma removeOrderId_sideWF (better : Nat → Nat → Bool) (oid : Nat)
    (levels : List PriceLevel) (hWF : sideWF better levels) :
    sideWF better (removeOrderId oid levels).1 := by
  induction levels with
  | nil => simpa [removeOrderId] using hWF
  | cons lvl rest ih =>
    obtain ⟨hpair, hlvls⟩ := hWF
    have htail : sideWF better rest :=
      ⟨(List.pairwise_cons.mp hpair).2, fun l hl => hlvls l (List.mem_cons_of_mem _ hl)⟩
    simp only [removeOrderId]
    split
    · rename_i hmiss
      have hrec := ih htail
      constructor
      · rw [List.pairwise_cons]
        refine ⟨?_, hrec.1⟩
        intro l' hl'
        obtain ⟨l, hl, hp⟩ := removeOrderId_prices oid rest l' hl'
        rw [hp]
        exact (List.pairwise_cons.mp hpair).1 l hl
      · intro l hl
        rcases List.mem_cons.mp hl with h | h
        · rw [h]; exact hlvls lvl (List.mem_cons_self _ _)
        · exact hrec.2 l h
    · rename_i hhit
      have hlvl := hlvls lvl (List.mem_cons_self _ _)
      split
      · exact htail
      · rename_i hkeep
        constructor
        · rw [List.pairwise_cons]
          refine ⟨?_, (List.pairwise_cons.mp hpair).2⟩
          intro l hl
          simpa using (List.pairwise_cons.mp hpair).1 l hl
        · intro l hl
          rcases List.mem_cons.mp hl with h | h
          · rw [h]
            refine ⟨by simpa using hkeep, ?_, ?_⟩
            · intro x hx
              have hx' := List.mem_filter.mp hx
              exact hlvl.2.1 x hx'.1
            · have hpart := sumRemaining_filter_id oid lvl.orders
              simp only
              have hc := hlvl.2.2
              omega
          · exact hlvls l (List.mem_cons_of_mem _ h)

/-- The ids resting after a removal form a sublist of the ids resting before
it. -/
lemma removeOrderId_ids (oid : Nat) (levels : List PriceLevel) :
    (sideIds (removeOrderId oid levels).1).Sublist (sideIds levels) := by
  induction levels with
  | nil => simp [removeOrderId]
  | cons lvl rest ih =>
    simp only [removeOrderId]
    split
    · simp only [sideIds_cons]
      exact List.Sublist.append (List.Sublist.refl _) ih
    · split
      · simp only [sideIds_cons]
        exact List.sublist_append_right _ _
      · simp only [sideIds_cons]
        refine List.Sublist.append ?_ (List.Sublist.refl _)
        exact List.Sublist.map Order.id (List.filter_sublist _)

end Matching

namespace Matching

lemma buyBetter_iff (p q : Nat) : buyBetter p q = true ↔ q < p := by
  simp [buyBetter]

lemma sellBetter_iff (p q : Nat) : sellBetter p q = true ↔ p < q := by
  simp [sellBetter]

lemma buyBetter_tot : ∀ a b : Nat, a ≠ b →
    buyBetter a b = true ∨ buyBetter b a = true := by
  intro a b h
  simp [buyBetter]
  omega

lemma buyBetter_trans : ∀ a b c : Nat,
    buyBetter a b = true → buyBetter b c = true → buyBetter a c = true := by
  intro a b c
  simp [buyBetter]
  omega

lemma sellBetter_tot : ∀ a b : Nat, a ≠ b →
    sellBetter a b = true ∨ sellBetter b a = true := by
  intro a b h
  simp [sellBetter]
  omega

lemma sellBetter_trans : ∀ a b c : Nat,
    sellBetter a b = true → sellBetter b c = true → sellBetter a c = true := by
  intro a b c
  simp [sellBetter]
  omega

/-- A well-formed level holds positive volume. -/
lemma levelWF_vol_pos (lvl : PriceLevel) (h : levelWF lvl) :
    0 < lvl.totalVolume := by
  obtain ⟨hne, hprops, hcache⟩ := h
  cases horders : lvl.orders with
  | nil => exact absurd horders hne
  | cons o os =>
    have hpos := (hprops o (by rw [horders]; exact List.mem_cons_self _ _)).1
    rw [hcache, horders]
    simp only [sumRemaining_cons]
    omega

/-- On a side whose levels are all well-formed, the sum of the cached level
volumes is the total remaining amount of the resting orders. -/
lemma sideVolume_eq (levels : List PriceLevel)
    (h : ∀ lvl ∈ levels, levelWF lvl) :
    levelsVolume levels = sumRemaining (levelsOrders levels) := by
  induction levels with
  | nil => simp
  | cons lvl rest ih =>
    have hlvl := h lvl (List.mem_cons_self _ _)
    simp only [levelsVolume_cons, levelsOrders_cons, sumRemaining_append]
    rw [hlvl.2.2, ih (fun l hl => h l (List.mem_cons_of_mem _ hl))]

@[simp]
lemma updateBestPrices_buyLevels (b : OrderBook) :
    (updateBestPrices b).buyLevels = b.buyLevels := rfl

@[simp]
lemma updateBestPrices_sellLevels (b : OrderBook) :
    (updateBestPrices b).sellLevels = b.sellLevels := rfl

@[simp]
lemma updateBestPrices_bestBid (b : OrderBook) :
    (updateBestPrices b).bestBid = b.buyLevels.head?.map PriceLevel.price := rfl

@[simp]
lemma updateBestPrices_bestAsk (b : OrderBook) :
    (updateBestPrices b).bestAsk = b.sellLevels.head?.map PriceLevel.price := rfl

/-- After `update_best_prices` on well-formed sides, the caches are
coherent. -/
lemma updateBestPrices_coherent (b : OrderBook)
    (hbuy : sideWF buyBetter b.buyLevels)
    (hsell : sideWF sellBetter b.sellLevels) :
    cacheCoherent (updateBestPrices b) := by
  refine ⟨?_, ?_, ?_, ?_⟩
  · simp only [updateBestPrices_bestBid, updateBestPrices_buyLevels]
    cases b.buyLevels with
    | nil => simp
    | cons lvl rest => simp
  · intro p hp
    simp only [updateBestPrices_bestBid, updateBestPrices_buyLevels] at hp ⊢
    cases hb : b.buyLevels with
    | nil => rw [hb] at hp; simp at hp
    | cons lvl rest =>
      rw [hb] at hp
      have hp2 : lvl.price = p := by simpa using hp
      subst hp2
      rw [hb] at hbuy
      constructor
      · refine ⟨lvl, List.mem_cons_self _ _, rfl, ?_⟩
        exact levelWF_vol_pos lvl (hbuy.2 lvl (List.mem_cons_self _ _))
      · intro l hl
        rcases List.mem_cons.mp hl with h | h
        · rw [h]
        · have := (List.pairwise_cons.mp hbuy.1).1 l h
          rw [buyBetter_iff] at this
          omega
  · simp only [updateBestPrices_bestAsk, updateBestPrices_sellLevels]
    cases b.sellLevels with
    | nil => simp
    | cons lvl rest => simp
  · intro p hp
    simp only [updateBestPrices_bestAsk, updateBestPrices_sellLevels] at hp ⊢
    cases hb : b.sellLevels with
    | nil => rw [hb] at hp; simp at hp
    | cons lvl rest =>
      rw [hb] at hp
      have hp2 : lvl.price = p := by simpa using hp
      subst hp2
      rw [hb] at hsell
      constructor
      · refine ⟨lvl, List.mem_cons_self _ _, rfl, ?_⟩
        exact levelWF_vol_pos lvl (hsell.2 lvl (List.mem_cons_self _ _))
      · intro l hl
        rcases List.mem_cons.mp hl with h | h
        · rw [h]
        · have := (List.pairwise_cons.mp hsell.1).1 l h
          rw [sellBetter_iff] at this
          omega

end Matching

namespace Matching

/-- `match_order` preserves book well-formedness. -/
lemma matchOrder_bookWF (book : OrderBook) (taker : Order)
    (hWF : bookWF book) : bookWF ((book.matchOrder taker).2.2) := by
  obtain ⟨hbuy, hsell, hnb, hns⟩ := hWF
  cases hside : taker.side
  case Buy =>
    obtain ⟨k, hk⟩ := matchLoop_ids taker book.sellLevels
    simp only [OrderBook.matchOrder, hside]
    refine ⟨by simpa using hbuy, ?_, by simpa using hnb, ?_⟩
    · simpa using matchLoop_sideWF sellBetter taker book.sellLevels hsell
    · simp only [updateBestPrices_sellLevels]
      rw [hk]
      exact hns.sublist (List.drop_sublist _ _)
  case Sell =>
    obtain ⟨k, hk⟩ := matchLoop_ids taker book.buyLevels
    simp only [OrderBook.matchOrder, hside]
    refine ⟨?_, by simpa using hsell, ?_, by simpa using hns⟩
    · simpa using matchLoop_sideWF buyBetter taker book.buyLevels hbuy
    · simp only [updateBestPrices_buyLevels]
      rw [hk]
      exact hnb.sublist (List.drop_sublist _ _)

/-- `match_order` leaves coherent best-price caches. -/
lemma matchOrder_cache (book : OrderBook) (taker : Order)
    (hWF : bookWF book) : cacheCoherent ((book.matchOrder taker).2.2) := by
  obtain ⟨hbuy, hsell, hnb, hns⟩ := hWF
  cases hside : taker.side
  case Buy =>
    simp only [OrderBook.matchOrder, hside]
    apply updateBestPrices_coherent
    · simpa using hbuy
    · simpa using matchLoop_sideWF sellBetter taker book.sellLevels hsell
  case Sell =>
    simp only [OrderBook.matchOrder, hside]
    apply updateBestPrices_coherent
    · simpa using matchLoop_sideWF buyBetter taker book.buyLevels hbuy
    · simpa using hsell

/-- `add_order` preserves side well-formedness on both sides. -/
lemma addOrder_sidesWF (book : OrderBook) (o : Order)
    (hbuy : sideWF buyBetter book.buyLevels)
    (hsell : sideWF sellBetter book.sellLevels)
    (hpos : 0 < o.remainingBase) :
    sideWF buyBetter ((book.addOrder o).buyLevels) ∧
    sideWF sellBetter ((book.addOrder o).sellLevels) := by
  cases hside : o.side
  case Buy =>
    simp only [OrderBook.addOrder, hside]
    constructor
    · simpa using insertIntoSide_sideWF buyBetter o book.buyLevels
        buyBetter_tot buyBetter_trans hbuy hpos
    · simpa using hsell
  case Sell =>
    simp only [OrderBook.addOrder, hside]
    constructor
    · simpa using hbuy
    · simpa using insertIntoSide_sideWF sellBetter o book.sellLevels
        sellBetter_tot sellBetter_trans hsell hpos

/-- `add_order` leaves coherent best-price caches. -/
lemma addOrder_cache (book : OrderBook) (o : Order)
    (hbuy : sideWF buyBetter book.buyLevels)
    (hsell : sideWF sellBetter book.sellLevels)
    (hpos : 0 < o.remainingBase) :
    cacheCoherent (book.addOrder o) := by
  cases hside : o.side
  case Buy =>
    simp only [OrderBook.addOrder, hside]
    apply updateBestPrices_coherent
    · simpa using insertIntoSide_sideWF buyBetter o book.buyLevels
        buyBetter_tot buyBetter_trans hbuy hpos
    · simpa using hsell
  case Sell =>
    simp only [OrderBook.addOrder, hside]
    apply updateBestPrices_coherent
    · simpa using hbuy
    · simpa using insertIntoSide_sideWF sellBetter o book.sellLevels
        sellBetter_tot sellBetter_trans hsell hpos

/-- `cancel` preserves book well-formedness. -/
lemma cancelOrder_bookWF (book : OrderBook) (oid : Nat)
    (hWF : bookWF book) : bookWF ((book.cancelOrder oid).1) := by
  obtain ⟨hbuy, hsell, hnb, hns⟩ := hWF
  simp only [OrderBook.cancelOrder]
  split
  · refine ⟨by simpa using hbuy, ?_, by simpa using hnb, ?_⟩
    · simpa using removeOrderId_sideWF sellBetter oid book.sellLevels hsell
    · simp only [updateBestPrices_sellLevels]
      exact hns.sublist (removeOrderId_ids oid book.sellLevels)
  · refine ⟨?_, by simpa using hsell, ?_, by simpa using hns⟩
    · simpa using removeOrderId_sideWF buyBetter oid book.buyLevels hbuy
    · simp only [updateBestPrices_buyLevels]
      exact hnb.sublist (removeOrderId_ids oid book.buyLevels)

/-- `cancel` leaves coherent best-price caches. -/
lemma cancelOrder_cache (book : OrderBook) (oid : Nat)
    (hWF : bookWF book) : cacheCoherent ((book.cancelOrder oid).1) := by
  obtain ⟨hbuy, hsell, hnb, hns⟩ := hWF
  simp only [OrderBook.cancelOrder]
  split
  · apply updateBestPrices_coherent
    · simpa using hbuy
    · simpa using removeOrderId_sideWF sellBetter oid book.sellLevels hsell
  · apply updateBestPrices_coherent
    · simpa using removeOrderId_sideWF buyBetter oid book.buyLevels hbuy
    · simpa using hsell

/-- The sides of the book returned by `process_limit_order` are well-formed,
whichever branch is taken. -/
lemma processLimitOrder_sidesWF (book : OrderBook) (order : Order)
    (hWF : bookWF book) :
    sideWF buyBetter ((processLimitOrder book order).book).buyLevels ∧
    sideWF sellBetter ((processLimitOrder book order).book).sellLevels := by
  have hWF' := matchOrder_bookWF book order hWF
  simp only [processLimitOrder]
  split
  · cases hrem : remainingOrderOf (book.matchOrder order).2.1 with
    | none => simpa using ⟨hWF'.1, hWF'.2.1⟩
    | some r =>
      simp only
      have hpos : 0 < r.remainingBase := by
        simp only [remainingOrderOf] at hrem
        split at hrem
        · exact absurd hrem (by simp)
        · rename_i hni
          rw [Bool.not_eq_true, isOrderComplete_false_iff] at hni
          cases hrem
          exact hni
      exact addOrder_sidesWF _ _ hWF'.1 hWF'.2.1 (by simpa using hpos)
  · cases hrem : remainingOrderOf (book.matchOrder order).2.1 with
    | none => simpa using ⟨hWF'.1, hWF'.2.1⟩
    | some r => simpa using ⟨hWF'.1, hWF'.2.1⟩

/-- The book returned by `process_limit_order` has coherent caches. -/
lemma processLimitOrder_cache (book : OrderBook) (order : Order)
    (hWF : bookWF book) :
    cacheCoherent ((processLimitOrder book order).book) := by
  have hWF' := matchOrder_bookWF book order hWF
  have hcache := matchOrder_cache book order hWF
  simp only [processLimitOrder]
  split
  · cases hrem : remainingOrderOf (book.matchOrder order).2.1 with
    | none => simpa using hcache
    | some r =>
      simp only
      have hpos : 0 < r.remainingBase := by
        simp only [remainingOrderOf] at hrem
        split at hrem
        · exact absurd hrem (by simp)
        · rename_i hni
          rw [Bool.not_eq_true, isOrderComplete_false_iff] at hni
          cases hrem
          exact hni
      exact addOrder_cache _ _ hWF'.1 hWF'.2.1 (by simpa using hpos)
  · cases hrem : remainingOrderOf (book.matchOrder order).2.1 with
    | none => simpa using hcache
    | some r => simpa using hcache

end Matching

namespace Matching

/-- Trades of the loop have positive base amounts whenever all resting orders
do (no restriction on the taker's type). -/
lemma matchLoop_trades_pos (taker : Order) (levels : List PriceLevel)
    (hpos : ∀ lvl ∈ levels, ∀ o ∈ lvl.orders, 0 < o.remainingBase) :
    ∀ t ∈ (matchLoop taker levels).2.2, 0 < t.baseAmount := by
  induction levels generalizing taker with
  | nil => simp
  | cons lvl rest ih =>
    rcases Nat.eq_zero_or_pos taker.remainingBase with hc | hc
    · rw [matchLoop_cons_complete taker lvl rest hc]
      simp
    · have hcf : isOrderComplete taker = false := by
        rw [isOrderComplete_false_iff]; exact hc
      by_cases hgo : taker.isMarket = true ∨ isPriceAcceptable taker lvl.price = true
      · rw [matchLoop_cons_go taker lvl rest hcf hgo]
        have hpos1 := matchMakers_trade_pos taker lvl.price lvl.orders
          (fun o ho => hpos lvl (List.mem_cons_self _ _) o ho)
        split
        · intro t ht
          simp only [matchAtPriceLevel_trades, List.mem_append] at ht
          rcases ht with ht | ht
          · exact hpos1 t ht
          · exact ih (matchAtPriceLevel taker lvl).1
              (fun l hl o ho => hpos l (List.mem_cons_of_mem _ hl) o ho) t ht
        · intro t ht
          simp only [matchAtPriceLevel_trades] at ht
          exact hpos1 t ht
      · push_neg at hgo
        rw [matchLoop_cons_stop taker lvl rest hcf
          (by simpa using hgo.1) (by simpa using hgo.2)]
        simp

/-- C4 (code bug evidence): on spec scenario S3 — a resting ask at 100 for
0.3 and an IOC limit bid at 100 for 1.0 — the embedded
`process_limit_order` executes the 0.3 trade, does not rest the 0.7
remainder, leaves the book empty, but marks the partially filled taker
`Cancelled`, not `PartialFillCancelled` as the claim (and the file's own
Order Status table) requires. -/
theorem ioc_partial_remainder_killed :
    (processLimitOrder wBook wBidIOC).trades =
      [{ makerOrderId := 1, takerOrderId := 2, baseAmount := 3, price := 100 },
       { makerOrderId := 3, takerOrderId := 2, baseAmount := 2, price := 100 }] ∧
    (processLimitOrder wBook wBidIOC).taker.remainingBase = 5 ∧
    (processLimitOrder wBook wBidIOC).rested = none ∧
    (processLimitOrder wBook wBidIOC).book.sellLevels = [] ∧
    (processLimitOrder wBook wBidIOC).book.buyLevels = [] ∧
    (processLimitOrder wBook wBidIOC).taker.status = OrderStatus.Cancelled ∧
    (processLimitOrder wBook wBidIOC).taker.status ≠
      OrderStatus.PartialFillCancelled := by
  decide

/-- C5: after each book operation (match, add, cancel, and the composite
limit-order processing) the cached best bid equals the maximum bid price with
nonzero resting volume and the cached best ask the minimum such ask price
(`cacheCoherent`), and the `best_bid`/`best_ask` queries return exactly the
cached values. -/
theorem best_price_cache_correct (b : OrderBook) (taker o : Order) (oid : Nat)
    (hWF : bookWF b) (hpos : 0 < o.remainingBase) :
    (OrderBook.bestBidQuery b = b.bestBid ∧
     OrderBook.bestAskQuery b = b.bestAsk) ∧
    cacheCoherent (b.addOrder o) ∧
    cacheCoherent ((b.cancelOrder oid).1) ∧
    cacheCoherent ((b.matchOrder taker).2.2) ∧
    cacheCoherent ((processLimitOrder b taker).book) :=
  ⟨⟨rfl, rfl⟩,
   addOrder_cache b o hWF.1 hWF.2.1 hpos,
   cancelOrder_cache b oid hWF,
   matchOrder_cache b taker hWF,
   processLimitOrder_cache b taker hWF⟩

/-- Witness for C5 on the sample book. -/
theorem best_price_cache_correct_witness :
    bookWF wBook ∧ 0 < wAsk.remainingBase ∧
    cacheCoherent (wBook.addOrder wAsk) ∧
    cacheCoherent ((wBook.cancelOrder 1).1) ∧
    cacheCoherent ((wBook.matchOrder wBidGTC).2.2) ∧
    cacheCoherent ((processLimitOrder wBook wBidGTC).book) :=
  ⟨by decide, by decide,
   (best_price_cache_correct wBook wBidGTC wAsk 1 (by decide) (by decide)).2.1,
   (best_price_cache_correct wBook wBidGTC wAsk 1 (by decide) (by decide)).2.2.1,
   (best_price_cache_correct wBook wBidGTC wAsk 1 (by decide) (by decide)).2.2.2.1,
   (best_price_cache_correct wBook wBidGTC wAsk 1 (by decide) (by decide)).2.2.2.2⟩

/-- C7: manager routing — an unregistered instrument is answered with
`InstrumentNotRegistered` for both command kinds; on a halted instrument a
`Place` is rejected with `OrderbookHalted` while a `Cancel` is still applied
to the instrument's engine. -/
theorem manager_routing (m : Manager) (iid : Nat) (order : Order) (oid : Nat) :
    (m.lookupEngine iid = none →
      m.route (Command.place iid order) =
        Except.error ManagerError.InstrumentNotRegistered ∧
      m.route (Command.cancel iid oid) =
        Except.error ManagerError.InstrumentNotRegistered) ∧
    (∀ e, m.lookupEngine iid = some e → m.halted.contains iid = true →
      m.route (Command.place iid order) =
        Except.error ManagerError.OrderbookHalted ∧
      m.route (Command.cancel iid oid) =
        Except.ok (m.setEngine iid (e.cancel oid))) := by
  constructor
  · intro h
    constructor
    · simp [Manager.route, h]
    · simp [Manager.route, h]
  · intro e he hh
    constructor
    · simp only [Manager.route, he]
      rw [hh]
      simp
    · simp [Manager.route, he]

/-- Witness for C7: instrument 9 is unregistered, instrument 5 is halted. -/
theorem manager_routing_witness :
    wManager.lookupEngine 9 = none ∧
    wManager.route (Command.place 9 wBidGTC) =
      Except.error ManagerError.InstrumentNotRegistered ∧
    wManager.lookupEngine 5 = some wEngine ∧
    wManager.halted.contains 5 = true ∧
    wManager.route (Command.place 5 wBidGTC) =
      Except.error ManagerError.OrderbookHalted ∧
    wManager.route (Command.cancel 5 1) =
      Except.ok (wManager.setEngine 5 (wEngine.cancel 1)) :=
  ⟨rfl,
   ((manager_routing wManager 9 wBidGTC 1).1 rfl).1,
   rfl, rfl,
   ((manager_routing wManager 5 wBidGTC 1).2 wEngine rfl rfl).1,
   ((manager_routing wManager 5 wBidGTC 1).2 wEngine rfl rfl).2⟩

end Matching

namespace Frontend

/-- C10 counterexample: after one failed request flips the client to mock
mode, a subsequent `DELETE /orders/…` request (the `cancelOrder` endpoint) is
answered with the empty object `{}`, which is none of the listed mock data
kinds (instrument, depth, trades, fabricated New order) — so not every
subsequent request is answered from those built-in mock data. -/
theorem mock_fallback_counterexample :
    ((requestStep { useMock := false } "/instruments" "GET"
        ServerOutcome.failed).1).useMock = true ∧
    (requestStep
        ((requestStep { useMock := false } "/instruments" "GET"
          ServerOutcome.failed).1)
        "/orders/123?instrument_id=abc" "DELETE" ServerOutcome.ok).2.1 =
      RequestAnswer.fromMock MockResponse.emptyObject ∧
    isListedMockData MockResponse.emptyObject = false := by
  decide

/-- C10 (amended): once a request fails, the client sets `useMock`
permanently: every subsequent `request` call is answered by
`handleMockRequest` without contacting the server — built-in mock data for
the instruments, orderbook/depth, trades and order-creation endpoint
families, and an empty object for any other endpoint — and `useMock` stays
set until `setMockMode false` clears it. -/
theorem mock_fallback_amended (st : ClientState) (e m : String)
    (sv : ServerOutcome) :
    (st.useMock = true →
      requestStep st e m sv =
        (st, RequestAnswer.fromMock (handleMockRequest e m), false)) ∧
    ((requestStep { useMock := false } e m ServerOutcome.failed).1.useMock
      = true) ∧
    (st.useMock = true → (requestStep st e m sv).1.useMock = true) ∧
    ((setMockMode st false).useMock = false) := by
  refine ⟨?_, ?_, ?_, rfl⟩
  · intro h
    simp [requestStep, h]
  · simp [requestStep]
  · intro h
    simp [requestStep, h]

/-- Witness for the amended C10. -/
theorem mock_fallback_amended_witness :
    ({ useMock := true } : ClientState).useMock = true ∧
    requestStep { useMock := true } "/instruments" "GET" ServerOutcome.ok =
      ({ useMock := true },
       RequestAnswer.fromMock (handleMockRequest "/instruments" "GET"),
       false) :=
  ⟨rfl,
   (mock_fallback_amended { useMock := true } "/instruments" "GET"
     ServerOutcome.ok).1 rfl⟩

end Frontend

namespace Matching

lemma isMarket_of_limit (o : Order) (h : o.otype = OrderType.Limit) :
    o.isMarket = false := by
  simp [Order.isMarket, h]

lemma remainingOrderOf_none (o : Order) (h : o.remainingBase = 0) :
    remainingOrderOf o = none := by
  simp [remainingOrderOf, isOrderComplete, h]

lemma remainingOrderOf_some (o : Order) (h : 0 < o.remainingBase) :
    remainingOrderOf o = some o := by
  have : isOrderComplete o = false := by
    rw [isOrderComplete_false_iff]; exact h
  simp [remainingOrderOf, this]

/-- The trades of `match_order` are the trades of the loop over the opposite
side. -/
lemma matchOrder_trades (book : OrderBook) (order : Order) :
    (book.matchOrder order).1 =
      (matchLoop order (book.oppositeLevels order.side)).2.2 := by
  cases h : order.side <;>
    simp [OrderBook.matchOrder, OrderBook.oppositeLevels, h]

/-- The taker returned by `match_order` is the taker of the loop. -/
lemma matchOrder_taker_eq (book : OrderBook) (order : Order) :
    (book.matchOrder order).2.1 =
      (matchLoop order (book.oppositeLevels order.side)).1 := by
  cases h : order.side <;>
    simp [OrderBook.matchOrder, OrderBook.oppositeLevels, h]

/-- `match_order` leaves the taker's own side untouched. -/
lemma matchOrder_same_side (book : OrderBook) (order : Order) :
    ((book.matchOrder order).2.2).sideLevels order.side =
      book.sideLevels order.side := by
  cases h : order.side <;>
    simp [OrderBook.matchOrder, OrderBook.sideLevels, h]

/-- `match_order` replaces the opposite side with the loop's result. -/
lemma matchOrder_opp_side (book : OrderBook) (order : Order) :
    ((book.matchOrder order).2.2).sideLevels order.side.opposite =
      (matchLoop order (book.oppositeLevels order.side)).2.1 := by
  cases h : order.side <;>
    simp [OrderBook.matchOrder, OrderBook.sideLevels, Side.opposite,
      OrderBook.oppositeLevels, h]

/-- The resting orders on the side a taker matches against all have positive
remaining amounts in a well-formed book. -/
lemma bookWF_opp_pos (book : OrderBook) (order : Order) (hWF : bookWF book) :
    ∀ lvl ∈ book.oppositeLevels order.side, ∀ o ∈ lvl.orders,
      0 < o.remainingBase := by
  cases h : order.side
  case Buy =>
    intro lvl hlvl o ho
    exact ((hWF.2.1.2 lvl (by simpa [OrderBook.oppositeLevels, h] using hlvl)).2.1
      o ho).1
  case Sell =>
    intro lvl hlvl o ho
    exact ((hWF.1.2 lvl (by simpa [OrderBook.oppositeLevels, h] using hlvl)).2.1
      o ho).1

end Matching

namespace Matching

/-- C1: for a Limit GTC taker, `process_limit_order` matches while the best
opposite price crosses the limit — the executed quantity equals the minimum
of the taker's amount and the resting volume within its limit; quantity is
conserved; every trade is at a crossing price, for a positive amount; the
final status is Filled when fully matched, New when rested with no matches
and PartiallyFilled when rested after at least one match; a positive
remainder is rested in the book at the taker's limit price and nothing is
rested when fully matched; and a single match executes
min(taker.remaining, maker.remaining) at the maker's level price, popping
the maker exactly when it is fully filled. -/
theorem limit_gtc_matching (book : OrderBook) (order : Order)
    (hWF : bookWF book)
    (hLimit : order.otype = OrderType.Limit)
    (hGTC : order.tif = TimeInForce.GTC)
    (hfresh : order.remainingBase = order.baseAmount) :
    (sumBases (processLimitOrder book order).trades =
      min order.baseAmount
        (sumRemaining (levelsOrders
          (acceptablePrefix order (book.oppositeLevels order.side))))) ∧
    ((processLimitOrder book order).taker.remainingBase +
      sumBases (processLimitOrder book order).trades = order.baseAmount) ∧
    (∀ t ∈ (processLimitOrder book order).trades,
      isPriceAcceptable order t.price = true ∧ 0 < t.baseAmount) ∧
    ((processLimitOrder book order).taker.status =
      if (processLimitOrder book order).taker.remainingBase = 0 then
        OrderStatus.Filled
      else if (processLimitOrder book order).trades = [] then OrderStatus.New
      else OrderStatus.PartiallyFilled) ∧
    (0 < (processLimitOrder book order).taker.remainingBase →
      (processLimitOrder book order).rested =
        some (processLimitOrder book order).taker ∧
      ∃ lvl ∈ (processLimitOrder book order).book.sideLevels order.side,
        lvl.price = order.price ∧
        (processLimitOrder book order).taker ∈ lvl.orders) ∧
    ((processLimitOrder book order).taker.remainingBase = 0 →
      (processLimitOrder book order).rested = none) ∧
    (∀ (tk maker : Order) (p : Nat) (ms : List Order),
      0 < tk.remainingBase →
      (maker.remainingBase ≤ tk.remainingBase →
        matchMakers tk p (maker :: ms) =
          ((matchMakers (fillOrder tk maker.remainingBase) p ms).1,
           (matchMakers (fillOrder tk maker.remainingBase) p ms).2.1,
           { makerOrderId := maker.id, takerOrderId := tk.id,
             baseAmount := maker.remainingBase, price := p } ::
             (matchMakers (fillOrder tk maker.remainingBase) p ms).2.2)) ∧
      (tk.remainingBase < maker.remainingBase →
        matchMakers tk p (maker :: ms) =
          (fillOrder tk tk.remainingBase,
           fillOrder maker tk.remainingBase :: ms,
           [{ makerOrderId := maker.id, takerOrderId := tk.id,
              baseAmount := tk.remainingBase, price := p }]))) := by
  have hmkt : order.isMarket = false := isMarket_of_limit order hLimit
  have hcond : order.tif ≠ TimeInForce.IOC ∧ order.otype ≠ OrderType.Market := by
    rw [hGTC, hLimit]
    simp
  have htr := matchOrder_trades book order
  have htk := matchOrder_taker_eq book order
  have hexec := matchLoop_exec order (book.oppositeLevels order.side) hmkt
  have hlooptk := matchLoop_taker order (book.oppositeLevels order.side)
  have hle := matchLoop_exec_le order (book.oppositeLevels order.side)
  have hLpos := bookWF_opp_pos book order hWF
  have htrprops := matchLoop_trades order (book.oppositeLevels order.side)
    hmkt hLpos
  rcases Nat.eq_zero_or_pos
      (matchLoop order (book.oppositeLevels order.side)).1.remainingBase
    with h0 | hposrem
  · have hro : remainingOrderOf (book.matchOrder order).2.1 = none := by
      rw [htk]
      exact remainingOrderOf_none _ h0
    have hout : processLimitOrder book order =
        { trades := (book.matchOrder order).1,
          taker := { (book.matchOrder order).2.1 with
                      status := OrderStatus.Filled },
          rested := none, book := (book.matchOrder order).2.2 } := by
      simp only [processLimitOrder, if_pos hcond, hro]
    have harith : order.remainingBase -
        sumBases (matchLoop order (book.oppositeLevels order.side)).2.2 = 0 := by
      have h0c := h0
      rw [hlooptk] at h0c
      simpa using h0c
    refine ⟨?_, ?_, ?_, ?_, ?_, ?_, ?_⟩
    · rw [hout]
      simp only [htr, hexec, hfresh]
    · rw [hout]
      simp only [htr, htk, hlooptk, fillOrder_remainingBase]
      have := hle
      omega
    · rw [hout]
      simp only [htr]
      intro t ht
      exact ⟨(htrprops t ht).1, (htrprops t ht).2.1⟩
    · rw [hout]
      simp only [htk, hlooptk, fillOrder_remainingBase]
      rw [if_pos harith]
    · rw [hout]
      intro hcontra
      have hc3 : 0 < (book.matchOrder order).2.1.remainingBase := hcontra
      rw [htk] at hc3
      exact absurd hc3 (by omega)
    · rw [hout]
      simp
    · intro tk maker p ms hpos
      exact ⟨fun h2 => matchMakers_cons_pop tk maker p ms hpos h2,
             fun h2 => matchMakers_cons_part tk maker p ms hpos h2⟩
  · have hro : remainingOrderOf (book.matchOrder order).2.1 =
        some (book.matchOrder order).2.1 := by
      rw [htk]
      exact remainingOrderOf_some _ hposrem
    have hout : processLimitOrder book order =
        { trades := (book.matchOrder order).1,
          taker := { (book.matchOrder order).2.1 with
                      status := restedStatus (book.matchOrder order).1 },
          rested := some { (book.matchOrder order).2.1 with
                      status := restedStatus (book.matchOrder order).1 },
          book := (book.matchOrder order).2.2.addOrder
            { (book.matchOrder order).2.1 with
               status := restedStatus (book.matchOrder order).1 } } := by
      simp only [processLimitOrder, if_pos hcond, hro]
    have hrem2 : (matchLoop order (book.oppositeLevels order.side)).1.remainingBase =
        order.remainingBase -
          sumBases (matchLoop order (book.oppositeLevels order.side)).2.2 := by
      rw [hlooptk]
      simp
    refine ⟨?_, ?_, ?_, ?_, ?_, ?_, ?_⟩
    · rw [hout]
      simp only [htr, hexec, hfresh]
    · rw [hout]
      simp only [htr, htk, hrem2]
      omega
    · rw [hout]
      simp only [htr]
      intro t ht
      exact ⟨(htrprops t ht).1, (htrprops t ht).2.1⟩
    · rw [hout]
      simp only [htk, htr, hrem2]
      rw [if_neg (by omega)]
      simp only [restedStatus, List.isEmpty_iff]
    · rw [hout]
      intro hposrem2
      refine ⟨rfl, ?_⟩
      have hside2 : ({ (book.matchOrder order).2.1 with
          status := restedStatus (book.matchOrder order).1 } : Order).side =
          order.side := by
        rw [htk, hlooptk]
        simp
      have hprice2 : ({ (book.matchOrder order).2.1 with
          status := restedStatus (book.matchOrder order).1 } : Order).price =
          order.price := by
        rw [htk, hlooptk]
        simp
      cases hside : order.side
      case Buy =>
        obtain ⟨lvl, hlvl, hp, hm⟩ := insertIntoSide_mem buyBetter
          { (book.matchOrder order).2.1 with
            status := restedStatus (book.matchOrder order).1 }
          ((book.matchOrder order).2.2).buyLevels
        refine ⟨lvl, ?_, by rw [hp, hprice2], hm⟩
        have hside3 : (book.matchOrder order).2.1.side = Side.Buy := by
          rw [htk, hlooptk]
          simpa using hside
        simp only [OrderBook.addOrder, OrderBook.sideLevels, hside3,
          updateBestPrices_buyLevels]
        rw [← hside3]
        exact hlvl
      case Sell =>
        obtain ⟨lvl, hlvl, hp, hm⟩ := insertIntoSide_mem sellBetter
          { (book.matchOrder order).2.1 with
            status := restedStatus (book.matchOrder order).1 }
          ((book.matchOrder order).2.2).sellLevels
        refine ⟨lvl, ?_, by rw [hp, hprice2], hm⟩
        have hside3 : (book.matchOrder order).2.1.side = Side.Sell := by
          rw [htk, hlooptk]
          simpa using hside
        simp only [OrderBook.addOrder, OrderBook.sideLevels, hside3,
          updateBestPrices_sellLevels]
        rw [← hside3]
        exact hlvl
    · rw [hout]
      intro hcontra
      have hc3 : (book.matchOrder order).2.1.remainingBase = 0 := hcontra
      rw [htk] at hc3
      exact absurd hc3 (by omega)
    · intro tk maker p ms hpos
      exact ⟨fun h2 => matchMakers_cons_pop tk maker p ms hpos h2,
             fun h2 => matchMakers_cons_part tk maker p ms hpos h2⟩

end Matching

namespace Matching

/-- Witness for C1: the GTC bid for 1.0 against the 0.5 resting at 100. -/
theorem limit_gtc_matching_witness :
    bookWF wBook ∧ wBidGTC.otype = OrderType.Limit ∧
    wBidGTC.tif = TimeInForce.GTC ∧
    wBidGTC.remainingBase = wBidGTC.baseAmount ∧
    (processLimitOrder wBook wBidGTC).taker.remainingBase +
      sumBases (processLimitOrder wBook wBidGTC).trades =
        wBidGTC.baseAmount :=
  ⟨by decide, by decide, by decide, by decide,
   (limit_gtc_matching wBook wBidGTC (by decide) (by decide) (by decide)
     (by decide)).2.1⟩

/-- C2: for a Limit FOK order, `check_fok_liquidity` is consulted first;
when it reports insufficient volume the order ends Cancelled with zero trades
and the book unchanged, and when it reports sufficient volume the order ends
Filled with trades whose base amounts sum exactly to its base amount (and
nothing rests). -/
theorem limit_fok_atomic (book : OrderBook) (order : Order)
    (hWF : bookWF book)
    (hLimit : order.otype = OrderType.Limit)
    (hfresh : order.remainingBase = order.baseAmount) :
    (checkFokLiquidity book order = false →
      processLimitFOK book order =
        { trades := [],
          taker := { order with status := OrderStatus.Cancelled },
          rested := none, book := book }) ∧
    (checkFokLiquidity book order = true →
      (processLimitFOK book order).taker.status = OrderStatus.Filled ∧
      sumBases (processLimitFOK book order).trades = order.baseAmount ∧
      (processLimitFOK book order).taker.remainingBase = 0 ∧
      (processLimitFOK book order).rested = none) := by
  have hmkt : order.isMarket = false := isMarket_of_limit order hLimit
  constructor
  · intro h
    simp [processLimitFOK, h]
  · intro h
    have hava : order.remainingBase ≤
        sumRemaining (levelsOrders
          (acceptablePrefix order (book.oppositeLevels order.side))) := by
      have := of_decide_eq_true h
      exact this
    have hout : processLimitFOK book order =
        { trades := (book.matchOrder order).1,
          taker := { (book.matchOrder order).2.1 with
                      status := OrderStatus.Filled },
          rested := none, book := (book.matchOrder order).2.2 } := by
      simp [processLimitFOK, h]
    have htr := matchOrder_trades book order
    have htk := matchOrder_taker_eq book order
    have hexec := matchLoop_exec order (book.oppositeLevels order.side) hmkt
    have hlooptk := matchLoop_taker order (book.oppositeLevels order.side)
    refine ⟨by rw [hout], ?_, ?_, by rw [hout]⟩
    · rw [hout]
      simp only [htr, hexec, hfresh]
      omega
    · rw [hout]
      have hr2 : (matchLoop order (book.oppositeLevels order.side)).1.remainingBase =
          order.remainingBase -
            sumBases (matchLoop order (book.oppositeLevels order.side)).2.2 := by
        rw [hlooptk]
        simp
      show (book.matchOrder order).2.1.remainingBase = 0
      rw [htk, hr2, hexec]
      omega

/-- Witness for C2: the 1.0 FOK bid is killed against 0.5 resting, the 0.4
FOK bid fills exactly. -/
theorem limit_fok_atomic_witness :
    bookWF wBook ∧
    checkFokLiquidity wBook wBidFOKBig = false ∧
    processLimitFOK wBook wBidFOKBig =
      { trades := [],
        taker := { wBidFOKBig with status := OrderStatus.Cancelled },
        rested := none, book := wBook } ∧
    checkFokLiquidity wBook wBidFOK = true ∧
    sumBases (processLimitFOK wBook wBidFOK).trades = wBidFOK.baseAmount :=
  ⟨by decide, by decide,
   (limit_fok_atomic wBook wBidFOKBig (by decide) (by decide) (by decide)).1
     (by decide),
   by decide,
   ((limit_fok_atomic wBook wBidFOK (by decide) (by decide) (by decide)).2
     (by decide)).2.1⟩

/-- C8: the trade quote at scale `s` is `base * price` rounded half away from
zero — it is within half a unit of the exact product's mantissa, rounding up
on ties (the two inequalities characterize that rounding on non-negative
values) — it never exceeds the exact product rounded up, no trade with a zero
base amount is ever emitted by matching on a well-formed book, and the mock
trade of `api-client.ts` (base 0.5, price 100.0, quote 50.0) satisfies the
rule. -/
theorem trade_quote_correct (s base price : Nat) (book : OrderBook)
    (taker : Order) (hWF : bookWF book) :
    (2 * (base * price) <
        2 * quoteAmount s base price * 10 ^ s + 10 ^ s ∧
     2 * quoteAmount s base price * 10 ^ s ≤
        2 * (base * price) + 10 ^ s) ∧
    quoteAmount s base price ≤ ceilDivNat (base * price) (10 ^ s) ∧
    (∀ t ∈ (book.matchOrder taker).1, 0 < t.baseAmount) ∧
    quoteAmount 1 5 1000 = 500 := by
  have hD : 0 < 10 ^ s := pow_pos (by norm_num) s
  have hq : quoteAmount s base price =
      (2 * (base * price) + 10 ^ s) / (2 * 10 ^ s) := rfl
  have hdm := Nat.div_add_mod (2 * (base * price) + 10 ^ s) (2 * 10 ^ s)
  have hmod : (2 * (base * price) + 10 ^ s) % (2 * 10 ^ s) < 2 * 10 ^ s :=
    Nat.mod_lt _ (by omega)
  have hcomm : 2 * 10 ^ s *
      ((2 * (base * price) + 10 ^ s) / (2 * 10 ^ s)) =
      2 * ((2 * (base * price) + 10 ^ s) / (2 * 10 ^ s)) * 10 ^ s := by
    ring
  have hchar : 2 * (base * price) <
      2 * quoteAmount s base price * 10 ^ s + 10 ^ s ∧
      2 * quoteAmount s base price * 10 ^ s ≤
        2 * (base * price) + 10 ^ s := by
    rw [hq]
    omega
  refine ⟨hchar, ?_, ?_, by decide⟩
  · have hdm2 := Nat.div_add_mod (base * price + 10 ^ s - 1) (10 ^ s)
    have hmod2 : (base * price + 10 ^ s - 1) % (10 ^ s) < 10 ^ s :=
      Nat.mod_lt _ (by omega)
    have hceil : ceilDivNat (base * price) (10 ^ s) =
        (base * price + 10 ^ s - 1) / 10 ^ s := rfl
    have hNle : base * price ≤ ceilDivNat (base * price) (10 ^ s) * 10 ^ s := by
      rw [hceil]
      have : 10 ^ s * ((base * price + 10 ^ s - 1) / 10 ^ s) =
          ((base * price + 10 ^ s - 1) / 10 ^ s) * 10 ^ s := by ring
      omega
    by_contra hlt
    push_neg at hlt
    have hstep : (ceilDivNat (base * price) (10 ^ s) + 1) * 10 ^ s ≤
        quoteAmount s base price * 10 ^ s :=
      Nat.mul_le_mul_right _ (by omega)
    have hexpand : (ceilDivNat (base * price) (10 ^ s) + 1) * 10 ^ s =
        ceilDivNat (base * price) (10 ^ s) * 10 ^ s + 10 ^ s := by ring
    have hlink : 2 * quoteAmount s base price * 10 ^ s =
        2 * (quoteAmount s base price * 10 ^ s) := by ring
    have := hchar.2
    omega
  · cases hside : taker.side
    case Buy =>
      intro t ht
      rw [matchOrder_trades] at ht
      exact matchLoop_trades_pos taker (book.oppositeLevels taker.side)
        (bookWF_opp_pos book taker hWF) t ht
    case Sell =>
      intro t ht
      rw [matchOrder_trades] at ht
      exact matchLoop_trades_pos taker (book.oppositeLevels taker.side)
        (bookWF_opp_pos book taker hWF) t ht

/-- Witness for C8 at scale 1 with the mock trade's numbers. -/
theorem trade_quote_correct_witness :
    bookWF wBook ∧ quoteAmount 1 5 1000 = 500 :=
  ⟨by decide,
   (trade_quote_correct 1 5 1000 wBook wBidGTC (by decide)).2.2.2⟩

end Matching

namespace Matching

@[simp]
lemma Side.opposite_opposite (s : Side) : s.opposite.opposite = s := by
  cases s <;> rfl

@[simp]
lemma depthVolume_nil : depthVolume [] = 0 := rfl

@[simp]
lemma depthVolume_cons (e : Nat × Int) (rest : List (Nat × Int)) :
    depthVolume (e :: rest) = e.2 + depthVolume rest := by
  simp [depthVolume]

/-- Adjusting one price entry shifts the side's total volume by the delta. -/
lemma depthVolume_depthAdjust (entries : List (Nat × Int)) (p : Nat) (δ : Int) :
    depthVolume (depthAdjust entries p δ) = depthVolume entries + δ := by
  induction entries with
  | nil => simp [depthAdjust]
  | cons e rest ih =>
    obtain ⟨q, v⟩ := e
    simp only [depthAdjust]
    split
    · simp
      ring
    · simp [ih]
      ring

@[simp]
lemma adjust_sideDepth_same (d : DepthModule) (s : Side) (p : Nat) (δ : Int) :
    (d.adjust s p δ).sideDepth s = depthAdjust (d.sideDepth s) p δ := by
  cases s <;> rfl

@[simp]
lemma adjust_sideDepth_opp (d : DepthModule) (s : Side) (p : Nat) (δ : Int) :
    (d.adjust s p δ).sideDepth s.opposite = d.sideDepth s.opposite := by
  cases s <;> rfl

/-- Folding the per-trade depth updates leaves the taker side untouched and
subtracts the total traded amount from the maker side. -/
lemma foldl_updateAfterTrade (d : DepthModule) (tside : Side)
    (ts : List Trade) :
    ((ts.foldl (fun dd t => dd.updateAfterTrade tside t) d)).sideDepth tside =
      d.sideDepth tside ∧
    depthVolume (((ts.foldl (fun dd t => dd.updateAfterTrade tside t)
        d)).sideDepth tside.opposite) =
      depthVolume (d.sideDepth tside.opposite) - sumBases ts := by
  induction ts generalizing d with
  | nil => simp
  | cons t rest ih =>
    simp only [List.foldl_cons]
    constructor
    · rw [(ih _).1]
      simpa [DepthModule.updateAfterTrade] using
        adjust_sideDepth_opp d tside.opposite t.price
          (-(Int.ofNat t.baseAmount))
    · rw [(ih _).2]
      show depthVolume ((d.adjust tside.opposite t.price _).sideDepth
          tside.opposite) - _ = _
      rw [adjust_sideDepth_same, depthVolume_depthAdjust]
      simp only [sumBases_cons, Int.ofNat_eq_natCast]
      omega

/-- Folding the cancel-side depth updates subtracts the removed remaining
volume from that side and leaves the other side untouched. -/
lemma foldl_adjust_removed (d : DepthModule) (s : Side) (os : List Order) :
    depthVolume (((os.foldl
        (fun dd o => dd.adjust s o.price (-(Int.ofNat o.remainingBase)))
        d)).sideDepth s) =
      depthVolume (d.sideDepth s) - sumRemaining os ∧
    ((os.foldl
        (fun dd o => dd.adjust s o.price (-(Int.ofNat o.remainingBase)))
        d)).sideDepth s.opposite = d.sideDepth s.opposite := by
  induction os generalizing d with
  | nil => simp
  | cons o rest ih =>
    simp only [List.foldl_cons]
    constructor
    · rw [(ih _).1, adjust_sideDepth_same, depthVolume_depthAdjust]
      simp only [sumRemaining_cons, Int.ofNat_eq_natCast]
      omega
    · rw [(ih _).2, adjust_sideDepth_opp]

end Matching

namespace Matching

lemma remainingOrderOf_some_inv (o r : Order)
    (h : remainingOrderOf o = some r) : r = o ∧ 0 < o.remainingBase := by
  unfold remainingOrderOf at h
  split at h
  · exact absurd h (by simp)
  · rename_i hni
    rw [Bool.not_eq_true, isOrderComplete_false_iff] at hni
    simp only [Option.some_inj] at h
    exact ⟨h.symm, hni⟩

lemma oppositeLevels_eq (b : OrderBook) (s : Side) :
    b.oppositeLevels s = b.sideLevels s.opposite := by
  cases s <;> rfl

lemma sumRemaining_perm {l₁ l₂ : List Order} (h : l₁.Perm l₂) :
    sumRemaining l₁ = sumRemaining l₂ := by
  unfold sumRemaining
  exact (h.map _).sum_eq

/-- `add_order` does not touch the opposite side. -/
lemma addOrder_opp_side (b : OrderBook) (o : Order) :
    (b.addOrder o).sideLevels o.side.opposite =
      b.sideLevels o.side.opposite := by
  cases h : o.side <;>
    simp [OrderBook.addOrder, OrderBook.sideLevels, Side.opposite, h]

/-- `add_order` adds exactly the order's remaining amount to its side. -/
lemma addOrder_same_sum (b : OrderBook) (o : Order) :
    sumRemaining (levelsOrders ((b.addOrder o).sideLevels o.side)) =
      o.remainingBase + sumRemaining (levelsOrders (b.sideLevels o.side)) := by
  cases h : o.side
  case Buy =>
    simp only [OrderBook.addOrder, OrderBook.sideLevels, h,
      updateBestPrices_buyLevels]
    rw [sumRemaining_perm (insertIntoSide_perm buyBetter o b.buyLevels)]
    simp
  case Sell =>
    simp only [OrderBook.addOrder, OrderBook.sideLevels, h,
      updateBestPrices_sellLevels]
    rw [sumRemaining_perm (insertIntoSide_perm sellBetter o b.sellLevels)]
    simp

/-- Order-volume bookkeeping of `process_limit_order`: the maker side loses
exactly the executed quantity; the taker side gains exactly the rested
remainder (when there is one). -/
lemma processLimitOrder_sums (book : OrderBook) (order : Order) :
    sumRemaining (levelsOrders
        (((processLimitOrder book order).book).sideLevels
          order.side.opposite)) +
      sumBases (processLimitOrder book order).trades =
      sumRemaining (levelsOrders (book.sideLevels order.side.opposite)) ∧
    sumRemaining (levelsOrders
        (((processLimitOrder book order).book).sideLevels order.side)) =
      sumRemaining (levelsOrders (book.sideLevels order.side)) +
        (match (processLimitOrder book order).rested with
         | some r => r.remainingBase
         | none => 0) := by
  have htr := matchOrder_trades book order
  have hopp := matchOrder_opp_side book order
  have hsame := matchOrder_same_side book order
  have hcons := matchLoop_conservation order (book.oppositeLevels order.side)
  by_cases hcond : order.tif ≠ TimeInForce.IOC ∧ order.otype ≠ OrderType.Market
  · cases hc : remainingOrderOf (book.matchOrder order).2.1 with
    | none =>
      have hout : processLimitOrder book order =
          { trades := (book.matchOrder order).1,
            taker := { (book.matchOrder order).2.1 with
                        status := OrderStatus.Filled },
            rested := none, book := (book.matchOrder order).2.2 } := by
        simp only [processLimitOrder, if_pos hcond, hc]
      rw [hout]
      constructor
      · simp only [hopp, htr]
        rw [← oppositeLevels_eq]
        exact hcons
      · simp [hsame]
    | some r =>
      obtain ⟨hr, hrpos⟩ := remainingOrderOf_some_inv _ _ hc
      set r' : Order :=
        { r with status := restedStatus (book.matchOrder order).1 }
        with hrdef
      have hout : processLimitOrder book order =
          { trades := (book.matchOrder order).1, taker := r',
            rested := some r',
            book := (book.matchOrder order).2.2.addOrder r' } := by
        simp only [processLimitOrder, if_pos hcond, hc, hrdef]
      have hrside : r'.side = order.side := by
        rw [hrdef]
        show r.side = order.side
        rw [hr, matchOrder_taker_eq,
          matchLoop_taker order (book.oppositeLevels order.side)]
        simp
      rw [hout]
      constructor
      · show sumRemaining (levelsOrders
            (((book.matchOrder order).2.2.addOrder r').sideLevels
              order.side.opposite)) +
            sumBases (book.matchOrder order).1 = _
        have h1 := addOrder_opp_side (book.matchOrder order).2.2 r'
        rw [hrside] at h1
        rw [h1, hopp, htr, ← oppositeLevels_eq]
        exact hcons
      · show sumRemaining (levelsOrders
            (((book.matchOrder order).2.2.addOrder r').sideLevels
              order.side)) =
            sumRemaining (levelsOrders (book.sideLevels order.side)) +
              r'.remainingBase
        have h2 := addOrder_same_sum (book.matchOrder order).2.2 r'
        rw [hrside] at h2
        rw [h2, hsame]
        omega
  · cases hc : remainingOrderOf (book.matchOrder order).2.1 with
    | none =>
      have hout : processLimitOrder book order =
          { trades := (book.matchOrder order).1,
            taker := { (book.matchOrder order).2.1 with
                        status := OrderStatus.Filled },
            rested := none, book := (book.matchOrder order).2.2 } := by
        simp only [processLimitOrder, if_neg hcond, hc]
      rw [hout]
      constructor
      · simp only [hopp, htr]
        rw [← oppositeLevels_eq]
        exact hcons
      · simp [hsame]
    | some r =>
      have hout : processLimitOrder book order =
          { trades := (book.matchOrder order).1,
            taker := { r with status := OrderStatus.Cancelled },
            rested := none, book := (book.matchOrder order).2.2 } := by
        simp only [processLimitOrder, if_neg hcond, hc]
      rw [hout]
      constructor
      · simp only [hopp, htr]
        rw [← oppositeLevels_eq]
        exact hcons
      · simp [hsame]

/-- Order-volume bookkeeping of the FOK path. -/
lemma processLimitFOK_sums (book : OrderBook) (order : Order) :
    sumRemaining (levelsOrders
        (((processLimitFOK book order).book).sideLevels
          order.side.opposite)) +
      sumBases (processLimitFOK book order).trades =
      sumRemaining (levelsOrders (book.sideLevels order.side.opposite)) ∧
    sumRemaining (levelsOrders
        (((processLimitFOK book order).book).sideLevels order.side)) =
      sumRemaining (levelsOrders (book.sideLevels order.side)) ∧
    (processLimitFOK book order).rested = none := by
  have htr := matchOrder_trades book order
  have hopp := matchOrder_opp_side book order
  have hsame := matchOrder_same_side book order
  have hcons := matchLoop_conservation order (book.oppositeLevels order.side)
  by_cases h : checkFokLiquidity book order = true
  · have hout : processLimitFOK book order =
        { trades := (book.matchOrder order).1,
          taker := { (book.matchOrder order).2.1 with
                      status := OrderStatus.Filled },
          rested := none, book := (book.matchOrder order).2.2 } := by
      simp [processLimitFOK, h]
    rw [hout]
    refine ⟨?_, by simp [hsame], rfl⟩
    simp only [hopp, htr]
    rw [← oppositeLevels_eq]
    exact hcons
  · have hout : processLimitFOK book order =
        { trades := [],
          taker := { order with status := OrderStatus.Cancelled },
          rested := none, book := book } := by
      simp only [Bool.not_eq_true] at h
      simp [processLimitFOK, h]
    rw [hout]
    simp

end Matching

namespace Matching

/-- The sides of the book returned by the FOK path are well-formed. -/
lemma processLimitFOK_sidesWF (book : OrderBook) (order : Order)
    (hWF : bookWF book) :
    sideWF buyBetter ((processLimitFOK book order).book).buyLevels ∧
    sideWF sellBetter ((processLimitFOK book order).book).sellLevels := by
  by_cases h : checkFokLiquidity book order = true
  · have hWF' := matchOrder_bookWF book order hWF
    simp only [processLimitFOK, h, if_true]
    exact ⟨hWF'.1, hWF'.2.1⟩
  · simp only [Bool.not_eq_true] at h
    simp only [processLimitFOK, h, Bool.false_eq_true, if_false]
    exact ⟨hWF.1, hWF.2.1⟩

/-- A remainder rested by `process_limit_order` is on the taker's side. -/
lemma processLimitOrder_rested_side (book : OrderBook) (order r : Order)
    (h : (processLimitOrder book order).rested = some r) :
    r.side = order.side := by
  by_cases hcond : order.tif ≠ TimeInForce.IOC ∧ order.otype ≠ OrderType.Market
  · cases hc : remainingOrderOf (book.matchOrder order).2.1 with
    | none =>
      simp only [processLimitOrder, if_pos hcond, hc] at h
      exact absurd h (by simp)
    | some r₀ =>
      obtain ⟨hr₀, -⟩ := remainingOrderOf_some_inv _ _ hc
      simp only [processLimitOrder, if_pos hcond, hc] at h
      have hr : r = { r₀ with
          status := restedStatus (book.matchOrder order).1 } := by
        simpa using h.symm
      rw [hr]
      show r₀.side = order.side
      rw [hr₀, matchOrder_taker_eq,
        matchLoop_taker order (book.oppositeLevels order.side)]
      simp
  · cases hc : remainingOrderOf (book.matchOrder order).2.1 with
    | none =>
      simp only [processLimitOrder, if_neg hcond, hc] at h
      exact absurd h (by simp)
    | some r₀ =>
      simp only [processLimitOrder, if_neg hcond, hc] at h
      exact absurd h (by simp)

/-- Core coherence step: applying an outcome's depth updates keeps the depth
sums aligned with the book sums, given the outcome's bookkeeping facts. -/
lemma place_core (e : Engine) (order : Order) (out : ProcessOutcome)
    (hsum1 : sumRemaining (levelsOrders
        (out.book.sideLevels order.side.opposite)) + sumBases out.trades =
      sumRemaining (levelsOrders (e.book.sideLevels order.side.opposite)))
    (hsum2 : sumRemaining (levelsOrders (out.book.sideLevels order.side)) =
      sumRemaining (levelsOrders (e.book.sideLevels order.side)) +
        (match out.rested with | some r => r.remainingBase | none => 0))
    (hrside : ∀ r, out.rested = some r → r.side = order.side)
    (hWFb : sideWF buyBetter out.book.buyLevels)
    (hWFs : sideWF sellBetter out.book.sellLevels)
    (hco : engineCoherent e) :
    engineCoherent { book := out.book,
                     depth := depthAfterOutcome e.depth order.side out } := by
  have hA : depthVolume
      ((depthAfterOutcome e.depth order.side out).sideDepth order.side) =
      depthVolume (e.depth.sideDepth order.side) +
        (match out.rested with
         | some r => (r.remainingBase : Int)
         | none => 0) := by
    unfold depthAfterOutcome
    cases hrest : out.rested with
    | none =>
      rw [(foldl_updateAfterTrade _ order.side out.trades).1]
      simp
    | some r =>
      have hr := hrside r hrest
      rw [(foldl_updateAfterTrade _ order.side out.trades).1]
      simp only [DepthModule.updateAfterOrderAdded, hr,
        adjust_sideDepth_same, depthVolume_depthAdjust,
        Int.ofNat_eq_natCast]
  have hB : depthVolume
      ((depthAfterOutcome e.depth order.side out).sideDepth
        order.side.opposite) =
      depthVolume (e.depth.sideDepth order.side.opposite) -
        sumBases out.trades := by
    unfold depthAfterOutcome
    cases hrest : out.rested with
    | none =>
      rw [(foldl_updateAfterTrade _ order.side out.trades).2]
    | some r =>
      have hr := hrside r hrest
      rw [(foldl_updateAfterTrade _ order.side out.trades).2]
      simp only [DepthModule.updateAfterOrderAdded, hr,
        adjust_sideDepth_opp]
  obtain ⟨hc1, hc2, hc3, hc4⟩ := hco
  cases hside : order.side
  case Buy =>
    rw [hside] at hA hB hsum1 hsum2
    simp only [DepthModule.sideDepth, OrderBook.sideLevels,
      Side.opposite] at hA hB hsum1 hsum2
    refine ⟨sideVolume_eq _ hWFb.2, sideVolume_eq _ hWFs.2, ?_, ?_⟩
    · show depthVolume ((depthAfterOutcome e.depth Side.Buy out).buyDepth) =
        (sumRemaining (levelsOrders out.book.buyLevels) : Int)
      cases hrest : out.rested with
      | none =>
        rw [hrest] at hA hsum2
        simp only [Nat.add_zero, Int.add_zero] at hA hsum2
        rw [hA, hc3, hsum2]
      | some r =>
        rw [hrest] at hA hsum2
        simp only [] at hA hsum2
        rw [hA, hc3, hsum2]
        push_cast
        ring
    · show depthVolume ((depthAfterOutcome e.depth Side.Buy out).sellDepth) =
        (sumRemaining (levelsOrders out.book.sellLevels) : Int)
      rw [hB, hc4]
      omega
  case Sell =>
    rw [hside] at hA hB hsum1 hsum2
    simp only [DepthModule.sideDepth, OrderBook.sideLevels,
      Side.opposite] at hA hB hsum1 hsum2
    refine ⟨sideVolume_eq _ hWFb.2, sideVolume_eq _ hWFs.2, ?_, ?_⟩
    · show depthVolume ((depthAfterOutcome e.depth Side.Sell out).buyDepth) =
        (sumRemaining (levelsOrders out.book.buyLevels) : Int)
      rw [hB, hc3]
      omega
    · show depthVolume ((depthAfterOutcome e.depth Side.Sell out).sellDepth) =
        (sumRemaining (levelsOrders out.book.sellLevels) : Int)
      cases hrest : out.rested with
      | none =>
        rw [hrest] at hA hsum2
        simp only [Nat.add_zero, Int.add_zero] at hA hsum2
        rw [hA, hc4, hsum2]
      | some r =>
        rw [hrest] at hA hsum2
        simp only [] at hA hsum2
        rw [hA, hc4, hsum2]
        push_cast
        ring

end Matching

namespace Matching

/-- A placed limit order (any time in force) preserves engine coherence. -/
lemma place_coherent (e : Engine) (order : Order)
    (hWF : bookWF e.book) (hco : engineCoherent e) :
    engineCoherent (e.place order).1 := by
  by_cases htif : order.tif = TimeInForce.FOK
  · have hout : (e.place order).1 =
        { book := (processLimitFOK e.book order).book,
          depth := depthAfterOutcome e.depth order.side
            (processLimitFOK e.book order) } := by
      simp [Engine.place, htif]
    rw [hout]
    obtain ⟨h1, h2, h3⟩ := processLimitFOK_sums e.book order
    have hWFs := processLimitFOK_sidesWF e.book order hWF
    refine place_core e order _ h1 ?_ ?_ hWFs.1 hWFs.2 hco
    · rw [h3]
      simpa using h2
    · intro r hr
      rw [h3] at hr
      exact absurd hr (by simp)
  · have hout : (e.place order).1 =
        { book := (processLimitOrder e.book order).book,
          depth := depthAfterOutcome e.depth order.side
            (processLimitOrder e.book order) } := by
      simp [Engine.place, htif]
    rw [hout]
    obtain ⟨h1, h2⟩ := processLimitOrder_sums e.book order
    have hWFs := processLimitOrder_sidesWF e.book order hWF
    exact place_core e order _ h1 h2
      (fun r hr => processLimitOrder_rested_side e.book order r hr)
      hWFs.1 hWFs.2 hco

/-- A cancel preserves engine coherence. -/
lemma cancel_coherent (e : Engine) (oid : Nat)
    (hWF : bookWF e.book) (hco : engineCoherent e) :
    engineCoherent (e.cancel oid) := by
  obtain ⟨hc1, hc2, hc3, hc4⟩ := hco
  have hout : e.cancel oid =
      { book := (e.book.cancelOrder oid).1,
        depth := ((e.book.cancelOrder oid).2.2).foldl
          (fun dd o => dd.adjust (e.book.cancelOrder oid).2.1 o.price
            (-(Int.ofNat o.remainingBase))) e.depth } := rfl
  by_cases hb : ((removeOrderId oid e.book.buyLevels).2).isEmpty = true
  · have hcanc : e.book.cancelOrder oid =
        (updateBestPrices { e.book with
            sellLevels := (removeOrderId oid e.book.sellLevels).1 },
         Side.Sell, (removeOrderId oid e.book.sellLevels).2) := by
      simp [OrderBook.cancelOrder, hb]
    rw [hout, hcanc]
    refine ⟨?_, ?_, ?_, ?_⟩
    · show levelsVolume e.book.buyLevels =
        sumRemaining (levelsOrders e.book.buyLevels)
      exact sideVolume_eq _ hWF.1.2
    · show levelsVolume (removeOrderId oid e.book.sellLevels).1 =
        sumRemaining (levelsOrders (removeOrderId oid e.book.sellLevels).1)
      exact sideVolume_eq _
        (removeOrderId_sideWF sellBetter oid e.book.sellLevels hWF.2.1).2
    · show depthVolume
        (((removeOrderId oid e.book.sellLevels).2.foldl
          (fun dd o => dd.adjust Side.Sell o.price
            (-(Int.ofNat o.remainingBase))) e.depth).buyDepth) =
        (sumRemaining (levelsOrders e.book.buyLevels) : Int)
      have h := (foldl_adjust_removed e.depth Side.Sell
        (removeOrderId oid e.book.sellLevels).2).2
      simp only [Side.opposite, DepthModule.sideDepth] at h
      rw [h]
      exact hc3
    · show depthVolume
        (((removeOrderId oid e.book.sellLevels).2.foldl
          (fun dd o => dd.adjust Side.Sell o.price
            (-(Int.ofNat o.remainingBase))) e.depth).sellDepth) =
        (sumRemaining (levelsOrders (removeOrderId oid e.book.sellLevels).1) :
          Int)
      have h := (foldl_adjust_removed e.depth Side.Sell
        (removeOrderId oid e.book.sellLevels).2).1
      simp only [DepthModule.sideDepth] at h
      rw [h, hc4]
      have hsum := removeOrderId_sum oid e.book.sellLevels
      omega
  · have hcanc : e.book.cancelOrder oid =
        (updateBestPrices { e.book with
            buyLevels := (removeOrderId oid e.book.buyLevels).1 },
         Side.Buy, (removeOrderId oid e.book.buyLevels).2) := by
      simp [OrderBook.cancelOrder, hb]
    rw [hout, hcanc]
    refine ⟨?_, ?_, ?_, ?_⟩
    · show levelsVolume (removeOrderId oid e.book.buyLevels).1 =
        sumRemaining (levelsOrders (removeOrderId oid e.book.buyLevels).1)
      exact sideVolume_eq _
        (removeOrderId_sideWF buyBetter oid e.book.buyLevels hWF.1).2
    · show levelsVolume e.book.sellLevels =
        sumRemaining (levelsOrders e.book.sellLevels)
      exact sideVolume_eq _ hWF.2.1.2
    · show depthVolume
        (((removeOrderId oid e.book.buyLevels).2.foldl
          (fun dd o => dd.adjust Side.Buy o.price
            (-(Int.ofNat o.remainingBase))) e.depth).buyDepth) =
        (sumRemaining (levelsOrders (removeOrderId oid e.book.buyLevels).1) :
          Int)
      have h := (foldl_adjust_removed e.depth Side.Buy
        (removeOrderId oid e.book.buyLevels).2).1
      simp only [DepthModule.sideDepth] at h
      rw [h, hc3]
      have hsum := removeOrderId_sum oid e.book.buyLevels
      omega
    · show depthVolume
        (((removeOrderId oid e.book.buyLevels).2.foldl
          (fun dd o => dd.adjust Side.Buy o.price
            (-(Int.ofNat o.remainingBase))) e.depth).sellDepth) =
        (sumRemaining (levelsOrders e.book.sellLevels) : Int)
      have h := (foldl_adjust_removed e.depth Side.Buy
        (removeOrderId oid e.book.buyLevels).2).2
      simp only [Side.opposite, DepthModule.sideDepth] at h
      rw [h]
      exact hc4

/-- C6: after every completed command (place with any time in force, cancel),
on each side the sum of the cached level volumes and the depth tracker's
volume both equal the sum of the remaining amounts of the resting orders on
that side; and appending an order to a level adds exactly its remaining
amount to the level's cached volume. -/
theorem volume_coherence (e : Engine) (order : Order) (oid : Nat)
    (lvl : PriceLevel) (o : Order)
    (hWF : bookWF e.book) (hco : engineCoherent e) :
    engineCoherent (e.place order).1 ∧
    engineCoherent (e.cancel oid) ∧
    (lvl.addOrder o).totalVolume = lvl.totalVolume + o.remainingBase :=
  ⟨place_coherent e order hWF hco, cancel_coherent e oid hWF hco, rfl⟩

/-- Witness for C6 on the sample engine. -/
theorem volume_coherence_witness :
    bookWF wEngine.book ∧ engineCoherent wEngine ∧
    engineCoherent (wEngine.place wBidGTC).1 ∧
    engineCoherent (wEngine.cancel 1) :=
  ⟨by decide, by decide,
   (volume_coherence wEngine wBidGTC 1 wLevel wAsk (by decide) (by decide)).1,
   (volume_coherence wEngine wBidGTC 1 wLevel wAsk
     (by decide) (by decide)).2.1⟩

end Matching

namespace Matching

@[simp]
lemma sideIds_append (l₁ l₂ : List PriceLevel) :
    sideIds (l₁ ++ l₂) = sideIds l₁ ++ sideIds l₂ := by
  simp [sideIds]

lemma mem_levelsOrders (levels : List PriceLevel) (lvl : PriceLevel)
    (o : Order) (hlvl : lvl ∈ levels) (ho : o ∈ lvl.orders) :
    o ∈ levelsOrders levels := by
  obtain ⟨X, Y, rfl⟩ := List.append_of_mem hlvl
  simp only [levelsOrders_append, levelsOrders_cons, List.mem_append]
  exact Or.inr (Or.inl ho)

/-- In a best-first sorted side, a strictly better-priced level sits strictly
earlier in the list. -/
lemma pairwise_better_split (better : Nat → Nat → Bool)
    (hasym : ∀ a b : Nat, better a b = true → better b a = true → False)
    (levels : List PriceLevel)
    (hp : levels.Pairwise (fun a b => better a.price b.price = true))
    (la lb : PriceLevel) (hla : la ∈ levels) (hlb : lb ∈ levels)
    (hbet : better la.price lb.price = true) :
    ∃ X Y, levels = X ++ la :: Y ∧ lb ∈ Y := by
  obtain ⟨X, Y, rfl⟩ := List.append_of_mem hla
  refine ⟨X, Y, rfl, ?_⟩
  rcases List.mem_append.mp hlb with hX | hY
  · have hpa := (List.pairwise_append.mp hp).2.2 lb hX la
      (List.mem_cons_self _ _)
    exact absurd hbet (fun hc => hasym _ _ hc hpa)
  · rcases List.mem_cons.mp hY with heq | hY'
    · rw [heq] at hbet
      exact absurd hbet (fun hc => hasym _ _ hc hc)
    · exact hY'

/-- An element strictly after position `i` survives dropping `i + 1`
elements. -/
lemma get_mem_drop {α : Type} (l : List α) (i j : Nat) (hj : j < l.length)
    (hij : i < j) : l.get ⟨j, hj⟩ ∈ l.drop (i + 1) := by
  induction l generalizing i j with
  | nil => simp at hj
  | cons a t ih =>
    cases j with
    | zero => omega
    | succ j' =>
      have hj' : j' < t.length := by simpa using hj
      have hget : (a :: t).get ⟨j' + 1, hj⟩ = t.get ⟨j', hj'⟩ := rfl
      cases i with
      | zero =>
        rw [hget]
        simpa using List.get_mem t j' hj'
      | succ i' =>
        rw [hget]
        have := ih i' j' hj' (by omega)
        simpa using this

/-- Decomposition of the priority-ordered resting ids around a
higher-priority order `A` and a lower-priority order `B`. -/
lemma flat_split (levels : List PriceLevel) (better : Nat → Nat → Bool)
    (hasym : ∀ a b : Nat, better a b = true → better b a = true → False)
    (hp : levels.Pairwise (fun a b => better a.price b.price = true))
    (A B : Order)
    (hAB : (∃ la ∈ levels, ∃ lb ∈ levels,
        A ∈ la.orders ∧ B ∈ lb.orders ∧ better la.price lb.price = true) ∨
      (∃ lvl ∈ levels, ∃ i j : Nat, ∃ hi : i < lvl.orders.length,
        ∃ hj : j < lvl.orders.length, i < j ∧
        lvl.orders.get ⟨i, hi⟩ = A ∧ lvl.orders.get ⟨j, hj⟩ = B)) :
    ∃ P Q, sideIds levels = P ++ A.id :: Q ∧ B.id ∈ Q := by
  rcases hAB with ⟨la, hla, lb, hlb, hA, hB, hbet⟩ |
    ⟨lvl, hlvl, i, j, hi, hj, hij, hgA, hgB⟩
  · obtain ⟨X, Y, rfl, hlbY⟩ :=
      pairwise_better_split better hasym levels hp la lb hla hlb hbet
    obtain ⟨P₁, Q₁, hsplit₁⟩ :=
      List.append_of_mem (List.mem_map_of_mem Order.id hA)
    refine ⟨sideIds X ++ P₁, Q₁ ++ sideIds Y, ?_, ?_⟩
    · rw [sideIds_append, sideIds_cons, hsplit₁]
      simp [List.append_assoc]
    · have hBY : B.id ∈ sideIds Y := by
        unfold sideIds
        exact List.mem_map_of_mem Order.id (mem_levelsOrders Y lb B hlbY hB)
      simp [hBY]
  · obtain ⟨X, Y, rfl⟩ := List.append_of_mem hlvl
    rw [List.get_eq_getElem] at hgA hgB
    have hdrop : lvl.orders.drop i = A :: lvl.orders.drop (i + 1) := by
      rw [List.drop_eq_getElem_cons hi, hgA]
    have horders : lvl.orders =
        lvl.orders.take i ++ A :: lvl.orders.drop (i + 1) := by
      conv_lhs => rw [← List.take_append_drop i lvl.orders]
      rw [hdrop]
    have hBdrop : B ∈ lvl.orders.drop (i + 1) := by
      have := get_mem_drop lvl.orders i j hj hij
      rw [List.get_eq_getElem] at this
      rw [← hgB]
      exact this
    refine ⟨sideIds X ++ (lvl.orders.take i).map Order.id,
            (lvl.orders.drop (i + 1)).map Order.id ++ sideIds Y, ?_, ?_⟩
    · rw [sideIds_append, sideIds_cons]
      conv_lhs => rw [horders]
      simp [List.append_assoc]
    · simp only [List.mem_append]
      exact Or.inl (List.mem_map_of_mem Order.id hBdrop)

/-- Transport a `List.get` along an equality of lists. -/
lemma get_congr_list {α : Type} {l l' : List α} (h : l = l') (i : Nat)
    (hi : i < l.length) (hi' : i < l'.length) :
    l.get ⟨i, hi⟩ = l'.get ⟨i, hi'⟩ := by
  subst h
  rfl

/-- In any `take`-prefix of a duplicate-free list of the shape
`P ++ a :: Q`, an occurrence of an element of `Q` is preceded by an
occurrence of `a`. -/
lemma take_find_earlier {α : Type} (Q : List α) (a b : α) (hb : b ∈ Q) :
    ∀ (P : List α) (n : Nat), (P ++ a :: Q).Nodup →
    ∀ i : Nat, ∀ hi : i < ((P ++ a :: Q).take n).length,
      ((P ++ a :: Q).take n).get ⟨i, hi⟩ = b →
      ∃ j : Nat, ∃ hj : j < ((P ++ a :: Q).take n).length, j < i ∧
        ((P ++ a :: Q).take n).get ⟨j, hj⟩ = a := by
  intro P
  induction P with
  | nil =>
    intro n hnd i hi hib
    cases n with
    | zero => simp at hi
    | succ m =>
      cases i with
      | zero =>
        exfalso
        have ha : a = b := hib
        have hnotin : a ∉ Q := by
          have h2 : (a :: Q).Nodup := by simpa using hnd
          exact (List.nodup_cons.mp h2).1
        exact hnotin (ha ▸ hb)
      | succ i' =>
        exact ⟨0, by omega, by omega, rfl⟩
  | cons p P' ih =>
    intro n hnd i hi hib
    cases n with
    | zero => simp at hi
    | succ m =>
      have h0 : (((p :: P') ++ a :: Q).take (m + 1)).length =
          ((P' ++ a :: Q).take m).length + 1 := by
        simp [List.cons_append]
      cases i with
      | zero =>
        exfalso
        have hpb : p = b := hib
        have hnotin : p ∉ P' ++ a :: Q := by
          have h2 : (p :: (P' ++ a :: Q)).Nodup := by simpa using hnd
          exact (List.nodup_cons.mp h2).1
        apply hnotin
        rw [hpb]
        simp [hb]
      | succ i' =>
        have hnd' : (P' ++ a :: Q).Nodup := by
          have h2 : (p :: (P' ++ a :: Q)).Nodup := by simpa using hnd
          exact (List.nodup_cons.mp h2).2
        have hi' : i' < ((P' ++ a :: Q).take m).length := by omega
        have hib' : ((P' ++ a :: Q).take m).get ⟨i', hi'⟩ = b := hib
        obtain ⟨j, hj, hji, hja⟩ := ih m hnd' i' hi' hib'
        exact ⟨j + 1, by omega, by omega, hja⟩

end Matching

namespace Matching

/-- C3: price-time priority.  Within a level, orders are appended at the tail
(first conjunct) and consumed head-first by matching; for two resting orders
A and B on the side a taker matches against, if A sits at a strictly better
price, or at the same level ahead of B in time order, then no trade against B
ever precedes a trade against A: any trade whose maker is B is preceded by an
earlier trade whose maker is A. -/
theorem price_time_priority (book : OrderBook) (taker A B : Order)
    (hWF : bookWF book)
    (hAB : (∃ la ∈ book.oppositeLevels taker.side,
        ∃ lb ∈ book.oppositeLevels taker.side,
        A ∈ la.orders ∧ B ∈ lb.orders ∧
        betterOn taker.side.opposite la.price lb.price = true) ∨
      (∃ lvl ∈ book.oppositeLevels taker.side, ∃ i j : Nat,
        ∃ hi : i < lvl.orders.length, ∃ hj : j < lvl.orders.length,
        i < j ∧ lvl.orders.get ⟨i, hi⟩ = A ∧ lvl.orders.get ⟨j, hj⟩ = B)) :
    (∀ (lvl : PriceLevel) (o : Order),
      (lvl.addOrder o).orders = lvl.orders ++ [o]) ∧
    ∀ i : Nat, ∀ hi : i < ((book.matchOrder taker).1).length,
      (((book.matchOrder taker).1).get ⟨i, hi⟩).makerOrderId = B.id →
      ∃ j : Nat, ∃ hj : j < ((book.matchOrder taker).1).length,
        j < i ∧ (((book.matchOrder taker).1).get ⟨j, hj⟩).makerOrderId =
          A.id := by
  have hnd : (sideIds (book.oppositeLevels taker.side)).Nodup := by
    cases h : taker.side
    case Buy => exact hWF.2.2.2
    case Sell => exact hWF.2.2.1
  have hp : (book.oppositeLevels taker.side).Pairwise
      (fun a b => betterOn taker.side.opposite a.price b.price = true) := by
    cases h : taker.side
    case Buy => exact hWF.2.1.1
    case Sell => exact hWF.1.1
  have hasym : ∀ a b : Nat,
      betterOn taker.side.opposite a b = true →
      betterOn taker.side.opposite b a = true → False := by
    cases taker.side.opposite <;>
      (intro a b
       simp [betterOn, buyBetter, sellBetter]
       omega)
  obtain ⟨P, Q, hsplit, hBQ⟩ :=
    flat_split (book.oppositeLevels taker.side)
      (betterOn taker.side.opposite) hasym hp A B hAB
  refine ⟨fun lvl o => rfl, ?_⟩
  have htr := matchOrder_trades book taker
  suffices main : ∀ l : List Trade,
      l = (matchLoop taker (book.oppositeLevels taker.side)).2.2 →
      ∀ i : Nat, ∀ hi : i < l.length,
      (l.get ⟨i, hi⟩).makerOrderId = B.id →
      ∃ j : Nat, ∃ hj : j < l.length, j < i ∧
        (l.get ⟨j, hj⟩).makerOrderId = A.id by
    exact main (book.matchOrder taker).1 htr
  rintro l rfl i hi hmakerB
  have hL : ((matchLoop taker (book.oppositeLevels taker.side)).2.2).map
      Trade.makerOrderId =
      (sideIds (book.oppositeLevels taker.side)).take
        (((matchLoop taker (book.oppositeLevels taker.side)).2.2).length) := by
    rw [matchLoop_fifo taker (book.oppositeLevels taker.side)]
    unfold sideIds
    rw [List.map_take]
  set ts := (matchLoop taker (book.oppositeLevels taker.side)).2.2 with hts
  set flat := sideIds (book.oppositeLevels taker.side) with hflat
  have hmap : ts.map Trade.makerOrderId =
      (P ++ A.id :: Q).take ts.length := by
    rw [hL, hsplit]
  have hnd2 : (P ++ A.id :: Q).Nodup := by
    rw [← hsplit]
    exact hnd
  have hb1 : i < (ts.map Trade.makerOrderId).length := by simpa using hi
  have h1 : (ts.map Trade.makerOrderId).get ⟨i, hb1⟩ = B.id := by
    rw [List.get_eq_getElem, List.getElem_map]
    rw [List.get_eq_getElem] at hmakerB
    exact hmakerB
  have hb2 : i < ((P ++ A.id :: Q).take ts.length).length := by
    rw [← hmap]
    exact hb1
  have h2 : ((P ++ A.id :: Q).take ts.length).get ⟨i, hb2⟩ = B.id :=
    (get_congr_list hmap i hb1 hb2).symm.trans h1
  obtain ⟨j, hj, hji, hja⟩ :=
    take_find_earlier Q A.id B.id hBQ P ts.length hnd2 i hb2 h2
  have hjts : j < ts.length := by
    have h4 := hj
    rw [List.length_take] at h4
    exact lt_of_lt_of_le h4 (min_le_left _ _)
  have hb3 : j < (ts.map Trade.makerOrderId).length := by simpa using hjts
  refine ⟨j, hjts, hji, ?_⟩
  have h3 : (ts.map Trade.makerOrderId).get ⟨j, hb3⟩ = A.id :=
    (get_congr_list hmap j hb3 hj).trans hja
  rw [List.get_eq_getElem, List.getElem_map] at h3
  rw [List.get_eq_getElem]
  exact h3

/-- Witness for C3 at the sample book: `wAsk` sits ahead of `wAsk2` in the
ask level at 100, so any trade of the bid `wBidGTC` against `wAsk2` is
preceded by an earlier trade against `wAsk`. -/
theorem price_time_priority_witness :
    bookWF wBook ∧
    ((∀ (lvl : PriceLevel) (o : Order),
        (lvl.addOrder o).orders = lvl.orders ++ [o]) ∧
      ∀ i : Nat, ∀ hi : i < ((wBook.matchOrder wBidGTC).1).length,
        (((wBook.matchOrder wBidGTC).1).get ⟨i, hi⟩).makerOrderId =
          wAsk2.id →
        ∃ j : Nat, ∃ hj : j < ((wBook.matchOrder wBidGTC).1).length,
          j < i ∧
          (((wBook.matchOrder wBidGTC).1).get ⟨j, hj⟩).makerOrderId =
            wAsk.id) :=
  ⟨by decide,
    price_time_priority wBook wBidGTC wAsk wAsk2 (by decide)
      (Or.inr ⟨wLevel, by decide, 0, 1, by decide, by decide, by decide,
        by decide, by decide⟩)⟩

end Matching
